import Mathlib

/-!
Verification of the o1js GCD circuit (src/bigint.ts, src/gcd.ts).

The development shallowly embeds the prover-side semantics of the circuit:
* o1js `Field` elements are canonical residues, i.e. naturals below the Pallas
  base-field prime `nativeP`; field addition and subtraction are modelled with
  explicit `% nativeP`.
* A `Bigint2048` is a sign flag plus a little-endian list of 18 limbs
  (each a field element that the circuit range-checks to 116 bits).
* Every operation that lays down assertions (`assertEquals`, carry checks,
  the witnessed multiplication identity, ...) is modelled as an
  `Option`-returning function: `none` means some assertion is unsatisfied,
  i.e. proof generation aborts.
* Witness generation (`Provable.witness`) is evaluated eagerly with exact
  integer arithmetic, exactly as the TypeScript callbacks do with `bigint`.
-/

set_option maxRecDepth 4000

/-! ### Definitions -/

/-- Number of limbs (`LIMB_NUM` in src/bigint.ts). -/
def LIMB_NUM : Nat := 18

/-- Bits per limb (`LIMB_BITS` in src/bigint.ts). -/
def LIMB_BITS : Nat := 116

/-- Limb base, `MODULUS = 1 << LIMB_BITS` in src/bigint.ts. -/
def MODULUS : Nat := 2 ^ LIMB_BITS

/-- Limb mask, `MASK = MODULUS - 1` in src/bigint.ts. -/
def MASK : Nat := MODULUS - 1

/-- The Pallas base-field prime: the modulus of the o1js `Field` type in
which all circuit scalars live. -/
def nativeP : Nat :=
  28948022309329048855892746252171976963363056481941560715954676764349967630337

/-- Largest representable magnitude: `Bigint2048.MAX = 2^2088 - 1`. -/
def MAX_NAT : Nat := 2 ^ 2088 - 1

/-- Field addition of canonical residues (o1js `Field.add`). -/
def fadd (x y : Nat) : Nat := (x + y) % nativeP

/-- Field subtraction of canonical residues (o1js `Field.sub`); callers keep
`y ≤ nativeP`, so adding the modulus before the truncated subtraction gives
the canonical residue of `x - y`. -/
def fsub (x y : Nat) : Nat := (x + nativeP - y) % nativeP

/-- Little-endian base-`2^116` limb extraction: the `from` loop of
src/bigint.ts pushes `x & MASK` and then shifts `x` right by `LIMB_BITS`,
`n` times. -/
def limbList : Nat → Nat → List Nat
  | 0, _ => []
  | n + 1, x => x % MODULUS :: limbList n (x / MODULUS)

/-- Value of a little-endian limb list (base `2^116`). The `toBigInt` loop
of src/bigint.ts accumulates from the most-significant limb downward; this
foldr computes the same weighted sum. -/
def valN : List Nat → Nat
  | [] => 0
  | h :: t => h + MODULUS * valN t

/-- The signed big-integer value type of src/bigint.ts: a sign flag and 18
limb field-elements. -/
structure Bigint2048 where
  negative : Bool
  fields : List Nat
deriving DecidableEq, Repr

/-- Well-formedness established by `Bigint2048.check` / construction: 18
limbs, each range-checked below `2^116`. -/
def Wf (a : Bigint2048) : Prop :=
  a.fields.length = LIMB_NUM ∧ ∀ l ∈ a.fields, l < MODULUS

instance : DecidablePred Wf := fun a => by unfold Wf; infer_instance

namespace Bigint2048

/-- Prover semantics of `Bigint2048.from`: extract 18 limbs of the
magnitude; if a non-zero amount is left over, `from` throws (modelled as
`none`). -/
def fromInt (x : Int) : Option Bigint2048 :=
  let neg : Bool := decide (x < 0)
  let m := x.natAbs
  if m / MODULUS ^ LIMB_NUM = 0 then
    some { negative := neg, fields := limbList LIMB_NUM m }
  else
    none

/-- The canonical non-negative value with magnitude `n % 2^2088`; for
`n < 2^2088` this is exactly what `Bigint2048.from n` returns. -/
def ofNat (n : Nat) : Bigint2048 :=
  { negative := false, fields := limbList LIMB_NUM n }

/-- Sign-magnitude readback, `Bigint2048.toBigInt`. -/
def toBigInt (a : Bigint2048) : Int :=
  if a.negative then -(valN a.fields : Int) else (valN a.fields : Int)

/-- The largest magnitude constant of src/bigint.ts
(`MAX = from((1 << (LIMB_BITS * LIMB_NUM)) - 1)`). -/
def MAX : Bigint2048 := ofNat MAX_NAT

/-- The zero constant (`ZERO = from(0)`), with a positive sign bit. -/
def ZERO : Bigint2048 := ofNat 0

/-- The one constant (`ONE = from(1)`). -/
def ONE : Bigint2048 := ofNat 1

/-- Magnitude (`abs`): clear the sign flag, keep the limbs. -/
def abs (a : Bigint2048) : Bigint2048 :=
  { negative := false, fields := a.fields }

/-- Negation (`neg`): flip the sign flag, keep the limbs. -/
def neg (a : Bigint2048) : Bigint2048 :=
  { negative := !a.negative, fields := a.fields }

/-- Limb-wise zero test (`isZero`): all limbs equal zero. -/
def isZero (a : Bigint2048) : Bool :=
  a.fields.all (fun l => l == 0)

/-- Equality test (`equals`): both all-zero, or same sign flag and
identical limbs. -/
def equals (a b : Bigint2048) : Bool :=
  (a.fields.all (fun l => l == 0) && b.fields.all (fun l => l == 0)) ||
    (a.negative == b.negative && a.fields == b.fields)

end Bigint2048

-- ---------------------------------------------------------------------------
-- Comparison and equality (src/bigint.ts cmp / equals / lessThan ...)

/-- Most-significant-first lexicographic limb comparison. The `cmp` loop of
src/bigint.ts walks limbs from index 17 down to 0 with a sticky three-valued
state that is only updated while still `Equal`; on equal-length lists this is
exactly lexicographic comparison of the reversed limb vectors. -/
def cmpRev : List Nat → List Nat → Ordering
  | a :: as, b :: bs =>
    match compare a b with
    | .eq => cmpRev as bs
    | o => o
  | _, _ => .eq

namespace Bigint2048

/-- Three-way comparison (`cmp`): magnitude scan then sign adjustment; an
all-zero magnitude neutralizes the sign bit. The four `Provable.switch`
branches of the source have mutually exclusive selectors and are modelled by
nested conditionals. -/
def cmp (a b : Bigint2048) : Ordering :=
  let state := cmpRev a.fields.reverse b.fields.reverse
  let thisNeg := a.negative && !a.isZero
  let otherNeg := b.negative && !b.isZero
  if thisNeg && !otherNeg then .lt
  else if !thisNeg && otherNeg then .gt
  else if !thisNeg && !otherNeg then state
  else
    match state with
    | .lt => .gt
    | .eq => .eq
    | .gt => .lt

/-- Strict less-than (`lessThan`): the comparison yields `Less`. -/
def lessThan (a b : Bigint2048) : Bool := cmp a b == Ordering.lt

end Bigint2048

/-- Most-significant-first value of a limb list. -/
def valRev : List Nat → Nat
  | [] => 0
  | h :: t => h * MODULUS ^ t.length + valRev t

-- ---------------------------------------------------------------------------
-- Carry-propagating addition / subtraction (src/bigint.ts add / sub)

/-- The unconditional magnitude-sum pass of `add`: limb-wise field addition
`aᵢ + bᵢ + carry`, with a conditional `- MODULUS` correction selected by the
comparison against `MASK`; returns the output limbs and the final carry. -/
def addLimbs : List Nat → List Nat → Bool → List Nat × Bool
  | a :: as, b :: bs, c =>
    let s := fadd (fadd a b) (cond c 1 0)
    let c2 := decide (s > MASK)
    let out := if c2 then fsub s MODULUS else s
    let r := addLimbs as bs c2
    (out :: r.1, r.2)
  | _, _, c => ([], c)

/-- The unconditional magnitude-difference pass of `add`: limb-wise field
subtraction `aᵢ - bᵢ - borrow` with a conditional `+ MODULUS` correction. -/
def subLimbs : List Nat → List Nat → Bool → List Nat × Bool
  | a :: as, b :: bs, c =>
    let s := fsub (fsub a b) (cond c 1 0)
    let c2 := decide (s > MASK)
    let out := if c2 then fadd s MODULUS else s
    let r := subLimbs as bs c2
    (out :: r.1, r.2)
  | _, _, c => ([], c)

namespace Bigint2048

/-- Sign-magnitude addition (`add`): both the magnitude-sum chain and the
magnitude-difference chain are computed unconditionally and their final
carries asserted false (`none` on violation); selector booleans then pick
the result limbs and sign. -/
def add (a b : Bigint2048) : Option Bigint2048 :=
  let isSub := !(a.negative == b.negative)
  let thisSmall := lessThan a.abs b.abs
  let resultNegative := if isSub then b.negative == thisSmall else a.negative
  let ar := addLimbs a.fields b.fields false
  if ar.2 then none
  else
    let bigger := if thisSmall then b else a
    let smaller := if thisSmall then a else b
    let sr := subLimbs bigger.fields smaller.fields false
    if sr.2 then none
    else some { negative := resultNegative,
                fields := if isSub then sr.1 else ar.1 }

/-- Subtraction (`sub`): `a - b = a + (-b)`. -/
def sub (a b : Bigint2048) : Option Bigint2048 := a.add b.neg

end Bigint2048

-- ---------------------------------------------------------------------------
-- Witnessed modular multiplication (src/bigint.ts multiply)

/-- Pointwise sum of coefficient lists (missing positions are zero). -/
def addP : List Int → List Int → List Int
  | [], ys => ys
  | xs, [] => xs
  | x :: xs, y :: ys => (x + y) :: addP xs ys

/-- Pointwise difference of coefficient lists (missing positions are zero). -/
def subP : List Int → List Int → List Int
  | xs, [] => xs
  | [], y :: ys => (-y) :: subP [] ys
  | x :: xs, y :: ys => (x - y) :: subP xs ys

/-- Coefficient-list convolution: position `k` accumulates all products
`xs[i] * ys[j]` with `i + j = k`, exactly like the nested loops of
`multiply` that do `delta[i+j] += X[i]*Y[j]`. -/
def convP : List Int → List Int → List Int
  | [], _ => []
  | x :: xs, ys => addP (ys.map (fun z => x * z)) (0 :: convP xs ys)

/-- Coefficient list of a limb list, limbs read as integers. -/
def castL : List Nat → List Int
  | [] => []
  | a :: t => (a : Int) :: castL t

/-- The difference polynomial of `multiply`:
`delta[k] = Σ_{i+j=k} X[i]*Y[j] - Σ_{i+j=k} Q[i]*P[j] - (R[k] if k < |R|)`. -/
def deltaList (X Y Q P R : List Nat) : List Int :=
  subP (subP (convP (castL X) (castL Y)) (convP (castL Q) (castL P))) (castL R)

/-- The carry chain of `multiply` over the difference polynomial. In the
circuit each carry is witnessed as the native-field division
`deltaPlusCarry / 2^116` and then (a) range-checked into `[-2^127, 2^127)`
and (b) constrained by `deltaPlusCarry = carry * 2^116`; because every
in-range quantity is far below the field modulus, those field constraints
are satisfied exactly when the integer division is exact and the integer
carry lies in the interval, which is what is checked here.  The last
position asserts `delta + carry = 0`. -/
def chainCheck : List Int → Int → Bool
  | [], c => c == 0
  | [d], c => d + c == 0
  | d :: rest, c =>
    (decide ((d + c).tdiv (MODULUS : Int) * (MODULUS : Int) = d + c) &&
     decide (-(2:Int) ^ 127 ≤ (d + c).tdiv (MODULUS : Int)) &&
     decide ((d + c).tdiv (MODULUS : Int) < (2:Int) ^ 127)) &&
    chainCheck rest ((d + c).tdiv (MODULUS : Int))

/-- All constraints `multiply` lays down on the witnessed limbs, beyond the
`check()` range checks: the carry-chain zeroing argument started with
carry `0`. -/
def gadgetCheck (X Y Q P R : List Nat) : Bool :=
  chainCheck (deltaList X Y Q P R) 0

namespace Bigint2048

/-- Prover semantics of `multiply(x, y, p)` (`x*y mod p`): witness
`q = xy / p` (native truncated division, which throws on `p = 0`) and
`r = xy - q*p` via `Bigint2048.from` (which throws if a witness needs more
than 18 limbs), then run the carry-chain constraints on the limbs; any
violated assertion yields `none`. -/
def multiply (x y p : Bigint2048) : Option Bigint2048 :=
  let xy := x.toBigInt * y.toBigInt
  let p0 := p.toBigInt
  if p0 = 0 then none
  else
    match fromInt (xy.tdiv p0), fromInt (xy - xy.tdiv p0 * p0) with
    | some qB, some rB =>
        if gadgetCheck x.fields y.fields qB.fields p.fields rB.fields
        then some rB else none
    | _, _ => none

/-- `p.modMul(x, y) = multiply(x, y, p)`. -/
def modMul (p x y : Bigint2048) : Option Bigint2048 := multiply x y p

/-- Non-modular product (`mul`): sign is the XOR of the operand signs, the
magnitude is `MAX.modMul(|a|, |b|)`, i.e. `|a|*|b| mod (2^2088 - 1)`. -/
def mul (a b : Bigint2048) : Option Bigint2048 :=
  (MAX.modMul a.abs b.abs).map
    (fun r => { negative := !(a.negative == b.negative), fields := r.fields })

end Bigint2048

/-- Value of a coefficient list in base `2^116`. -/
def valZ : List Int → Int
  | [] => 0
  | h :: t => h + MODULUS * valZ t

/-- The witness computation of `floorDiv`: native truncated division,
adjusted when the remainder is non-zero with a sign different from the
divisor (`--q; r += rhs`), as in the TypeScript callback. -/
def floorAdjust (lhs rhs : Int) : Int × Int :=
  let q := lhs.tdiv rhs
  let r := lhs.tmod rhs
  if r ≠ 0 ∧ decide (r < 0) ≠ decide (rhs < 0) then (q - 1, r + rhs) else (q, r)

namespace Bigint2048

/-- Prover semantics of `floorDiv`: assert the divisor non-zero, witness
quotient and remainder by `floorAdjust` (native truncated division fixed up
to the floor-division convention), then assert `y*q + r = this`,
`|r| < |y|`, and the remainder-sign contract; sequential assertion
execution is encoded in the `Option` monad. -/
def floorDiv (a b : Bigint2048) : Option (Bigint2048 × Bigint2048) :=
  if equals b ZERO then none
  else
    (fromInt (floorAdjust a.toBigInt b.toBigInt).1).bind (fun qB =>
    (fromInt (floorAdjust a.toBigInt b.toBigInt).2).bind (fun rB =>
    (b.mul qB).bind (fun m =>
    (m.add rB).bind (fun s =>
    if equals s a then
      if cmp rB.abs b.abs = Ordering.lt then
        if equals rB ZERO || (rB.negative == b.negative) then some (qB, rB)
        else none
      else none
    else none))))

end Bigint2048

/-! ## The GCD layer (`gcd.ts`) -/

/-- `GCD_ITERATIONS_PER_PROOF = 9`: the number of unrolled reduction steps
per `euclidGcd` call. -/
def GCD_ITERATIONS_PER_PROOF : Nat := 9

/-- `GcdPair`: the public state of the GCD program, a pair of `Bigint2048`. -/
structure GcdPair where
  g_0 : Bigint2048
  g_1 : Bigint2048
deriving DecidableEq, Repr

namespace GcdPair

/-- `isSolved`: the pair is solved when `g_0 == g_1` or `g_1 == 0`. -/
def isSolved (p : GcdPair) : Bool :=
  (p.g_0.equals p.g_1) || (p.g_1.equals Bigint2048.ZERO)

/-- One iteration of the loop body of `euclidGcd`: compute
`g_0.floorDiv(if g_1 == 0 then 1 else g_1)` unconditionally (the circuit
always lays down the division constraints, substituting the dummy divisor
`1` when `g_1` is zero), then select the next pair branchlessly:
`(g_0, g_1)` when `g_1` is zero, `(g_1, remainder)` otherwise. -/
def gcdStep (p : GcdPair) : Option GcdPair :=
  (p.g_0.floorDiv
      (cond (p.g_1.equals Bigint2048.ZERO) Bigint2048.ONE p.g_1)).bind
    (fun qr =>
      some (GcdPair.mk (cond (p.g_1.equals Bigint2048.ZERO) p.g_0 p.g_1)
        (cond (p.g_1.equals Bigint2048.ZERO) p.g_1 qr.2)))

/-- `n` iterations of the loop body, sequenced in the `Option` monad. -/
def gcdIterAux : Nat → GcdPair → Option GcdPair
  | 0, p => some p
  | n + 1, p => (gcdStep p).bind (gcdIterAux n)

/-- `euclidGcd`: the `for` loop of `GcdPair.euclidGcd`, i.e. exactly
`GCD_ITERATIONS_PER_PROOF` iterations of the loop body. -/
def euclidGcd (p : GcdPair) : Option GcdPair :=
  gcdIterAux GCD_ITERATIONS_PER_PROOF p

end GcdPair

/-- The driver of `run.ts` / the recursive `GcdProgram`: `baseCase` applies
`euclidGcd` once to the input pair and each `step` applies `euclidGcd` to
the previous public output, so after `n` proofs the public output is
`euclidGcd` applied `n` times. -/
def applyEuclidN : Nat → GcdPair → Option GcdPair
  | 0, p => some p
  | n + 1, p => (GcdPair.euclidGcd p).bind (applyEuclidN n)

/-- The integer model of one reduction step:
`(a, b) ↦ (a, b)` when `b = 0`, else `(a, b) ↦ (b, a mod b)`. -/
def eStep : Nat × Nat → Nat × Nat
  | (a, b) => if b = 0 then (a, b) else (b, a % b)

/-- Iterated integer reduction steps. -/
def eIter : Nat → Nat × Nat → Nat × Nat
  | 0, p => p
  | n + 1, p => eIter n (eStep p)

/-! ## `rangeCheck116` (src/bigint.ts) -/

/-- The constraints `rangeCheck116` lays down on a native scalar `x` for a
witness decomposition `(x0, x1)`: a 64-bit range check on `x0`, a 64-bit
range check on `x1` whose top 12-bit chunk (bits 52..63) is asserted zero,
and the field identity `x0 + x1 * 2^64 = x`. -/
def rangeCheck116 (x x0 x1 : Nat) : Bool :=
  decide (x0 < 2 ^ 64) && (decide (x1 < 2 ^ 64) && (decide (x1 / 2 ^ 52 = 0) &&
    decide (fadd x0 (x1 * 2 ^ 64 % nativeP) = x)))

/-- Satisfiability of `rangeCheck116`: some pair of field-element witnesses
passes all its constraints. -/
def rc116Sat (x : Nat) : Prop :=
  ∃ x0 x1 : Nat, x0 < nativeP ∧ x1 < nativeP ∧ rangeCheck116 x x0 x1 = true

/-! ### Theorems -/

-- ---------------------------------------------------------------------------
-- Base lemmas about limb lists

theorem modulus_pos : 0 < MODULUS := by
  unfold MODULUS LIMB_BITS; positivity

theorem modulus_pow_limbs : MODULUS ^ LIMB_NUM = 2 ^ 2088 := by
  unfold MODULUS LIMB_BITS LIMB_NUM
  norm_num [← pow_mul]

theorem limbList_length (n x : Nat) : (limbList n x).length = n := by
  induction n generalizing x with
  | zero => rfl
  | succ n ih => simp [limbList, ih]

theorem limbList_lt (n x : Nat) : ∀ l ∈ limbList n x, l < MODULUS := by
  induction n generalizing x with
  | zero => simp [limbList]
  | succ n ih =>
    intro l hl
    simp only [limbList, List.mem_cons] at hl
    rcases hl with h | h
    · exact h ▸ Nat.mod_lt _ modulus_pos
    · exact ih _ l h

theorem valN_limbList (n x : Nat) : valN (limbList n x) = x % MODULUS ^ n := by
  induction n generalizing x with
  | zero => simp [limbList, valN, Nat.mod_one]
  | succ n ih =>
    simp only [limbList, valN, ih]
    rw [pow_succ, mul_comm (MODULUS ^ n) MODULUS, Nat.mod_mul]

theorem valN_lt (l : List Nat) (h : ∀ x ∈ l, x < MODULUS) :
    valN l < MODULUS ^ l.length := by
  induction l with
  | nil => simp [valN]
  | cons a t ih =>
    have ha : a < MODULUS := h a (by simp)
    have ht := ih (fun x hx => h x (by simp [hx]))
    simp only [valN, List.length_cons, pow_succ]
    calc a + MODULUS * valN t < MODULUS + MODULUS * valN t := by omega
    _ = MODULUS * (valN t + 1) := by ring
    _ ≤ MODULUS * MODULUS ^ t.length := by
        exact Nat.mul_le_mul_left _ (by omega)
    _ = MODULUS ^ t.length * MODULUS := by ring

theorem valN_eq_zero_iff (l : List Nat) : valN l = 0 ↔ ∀ x ∈ l, x = 0 := by
  induction l with
  | nil => simp [valN]
  | cons a t ih =>
    simp only [valN, List.mem_cons]
    constructor
    · intro h
      have ha : a = 0 := by omega
      have ht : valN t = 0 := by
        have := modulus_pos; rcases Nat.eq_zero_or_pos (valN t) with h0 | h0
        · exact h0
        · exfalso; nlinarith
      intro x hx
      rcases hx with rfl | hx
      · exact ha
      · exact ih.mp ht x hx
    · intro h
      have ha : a = 0 := h a (Or.inl rfl)
      have ht : valN t = 0 := ih.mpr (fun x hx => h x (Or.inr hx))
      simp [ha, ht]

theorem valN_inj (l1 l2 : List Nat) (hlen : l1.length = l2.length)
    (h1 : ∀ x ∈ l1, x < MODULUS) (h2 : ∀ x ∈ l2, x < MODULUS)
    (hval : valN l1 = valN l2) : l1 = l2 := by
  induction l1 generalizing l2 with
  | nil => cases l2 with
    | nil => rfl
    | cons b t => simp at hlen
  | cons a t ih =>
    cases l2 with
    | nil => simp at hlen
    | cons b s =>
      simp only [valN] at hval
      have ha : a < MODULUS := h1 a (by simp)
      have hb : b < MODULUS := h2 b (by simp)
      have hab : a = b := by
        have e1 : (a + MODULUS * valN t) % MODULUS = a := by
          rw [Nat.add_mul_mod_self_left, Nat.mod_eq_of_lt ha]
        have e2 : (b + MODULUS * valN s) % MODULUS = b := by
          rw [Nat.add_mul_mod_self_left, Nat.mod_eq_of_lt hb]
        rw [← e1, ← e2, hval]
      subst hab
      have hts : valN t = valN s :=
        Nat.eq_of_mul_eq_mul_left modulus_pos (by omega)
      have := ih s (by simpa using hlen) (fun x hx => h1 x (by simp [hx]))
        (fun x hx => h2 x (by simp [hx])) hts
      simp [this]

theorem limbList_all_zero_iff (x : Nat) (hx : x < 2 ^ 2088) :
    (∀ l ∈ limbList LIMB_NUM x, l = 0) ↔ x = 0 := by
  rw [← valN_eq_zero_iff, valN_limbList, modulus_pow_limbs, Nat.mod_eq_of_lt hx]

namespace Bigint2048

theorem ofNat_wf (n : Nat) : Wf (ofNat n) :=
  ⟨limbList_length _ _, limbList_lt _ _⟩

@[simp] theorem ofNat_negative (n : Nat) : (ofNat n).negative = false := rfl

@[simp] theorem ofNat_fields (n : Nat) :
    (ofNat n).fields = limbList LIMB_NUM n := rfl

theorem ofNat_val (n : Nat) (hn : n < 2 ^ 2088) : valN (ofNat n).fields = n := by
  rw [ofNat_fields, valN_limbList, modulus_pow_limbs, Nat.mod_eq_of_lt hn]

theorem toBigInt_ofNat (n : Nat) (hn : n < 2 ^ 2088) :
    toBigInt (ofNat n) = (n : Int) := by
  rw [toBigInt, ofNat_negative, ofNat_val n hn]
  simp

theorem valN_wf_lt (a : Bigint2048) (h : Wf a) : valN a.fields < 2 ^ 2088 := by
  have := valN_lt a.fields h.2
  rwa [h.1, modulus_pow_limbs] at this

/-- `from` succeeds exactly on magnitudes below `2^2088`, and then returns
the canonical representation. -/
theorem fromInt_spec (x : Int) :
    (x.natAbs < 2 ^ 2088 →
      fromInt x = some { negative := decide (x < 0),
                         fields := limbList LIMB_NUM x.natAbs }) ∧
    (2 ^ 2088 ≤ x.natAbs → fromInt x = none) := by
  constructor
  · intro h
    have : x.natAbs / MODULUS ^ LIMB_NUM = 0 := by
      rw [modulus_pow_limbs]; exact Nat.div_eq_of_lt h
    simp [fromInt, this]
  · intro h
    have : x.natAbs / MODULUS ^ LIMB_NUM ≠ 0 := by
      rw [modulus_pow_limbs]
      have h1 : 1 ≤ x.natAbs / 2 ^ 2088 := (Nat.one_le_div_iff (by positivity)).mpr h
      omega
    simp [fromInt, this]

theorem fromInt_toBigInt (x : Int) (h : x.natAbs < 2 ^ 2088) :
    ∃ v, fromInt x = some v ∧ toBigInt v = x ∧ Wf v := by
  refine ⟨_, (fromInt_spec x).1 h, ?_, limbList_length _ _, limbList_lt _ _⟩
  simp only [toBigInt]
  have hval : valN (limbList LIMB_NUM x.natAbs) = x.natAbs := by
    rw [valN_limbList, modulus_pow_limbs, Nat.mod_eq_of_lt h]
  by_cases hx : x < 0
  · simp [hx, hval, Int.ofNat_natAbs_of_nonpos (le_of_lt hx)]
  · simp [hx, hval, Int.natAbs_of_nonneg (not_lt.mp hx)]

end Bigint2048

theorem valRev_append_singleton (l : List Nat) (x : Nat) :
    valRev (l ++ [x]) = valRev l * MODULUS + x := by
  induction l with
  | nil => simp [valRev]
  | cons a t ih =>
    have hl : (t ++ [x]).length = t.length + 1 := by simp
    simp only [List.cons_append, valRev, List.append_eq, ih]
    rw [hl, pow_succ]
    ring

theorem valRev_reverse (l : List Nat) : valRev l.reverse = valN l := by
  induction l with
  | nil => rfl
  | cons a t ih =>
    simp only [List.reverse_cons, valRev_append_singleton, ih, valN]
    ring

theorem valRev_lt (l : List Nat) (h : ∀ x ∈ l, x < MODULUS) :
    valRev l < MODULUS ^ l.length := by
  induction l with
  | nil => simp [valRev]
  | cons a t ih =>
    have ha : a < MODULUS := h a (by simp)
    have ht := ih (fun x hx => h x (by simp [hx]))
    simp only [valRev, List.length_cons, pow_succ]
    calc a * MODULUS ^ t.length + valRev t
        < a * MODULUS ^ t.length + MODULUS ^ t.length := by omega
    _ = (a + 1) * MODULUS ^ t.length := by ring
    _ ≤ MODULUS * MODULUS ^ t.length := Nat.mul_le_mul_right _ (by omega)
    _ = MODULUS ^ t.length * MODULUS := by ring

theorem cmpRev_spec (xs : List Nat) : ∀ ys : List Nat, xs.length = ys.length →
    (∀ x ∈ xs, x < MODULUS) → (∀ y ∈ ys, y < MODULUS) →
    cmpRev xs ys = compare (valRev xs) (valRev ys) := by
  induction xs with
  | nil => intro ys hlen _ _; cases ys with
    | nil => simpa [cmpRev, valRev] using (compare_eq_iff_eq.mpr rfl).symm
    | cons b bs => simp at hlen
  | cons a as ih =>
    intro ys hlen hx hy
    cases ys with
    | nil => simp at hlen
    | cons b bs =>
      have hlen2 : as.length = bs.length := by simpa using hlen
      have ha : a < MODULUS := hx a (by simp)
      have hb : b < MODULUS := hy b (by simp)
      have hva := valRev_lt as (fun x h => hx x (by simp [h]))
      have hvb := valRev_lt bs (fun y h => hy y (by simp [h]))
      rcases lt_trichotomy a b with hab | hab | hab
      · have h1 : compare a b = Ordering.lt := compare_lt_iff_lt.mpr hab
        have h2 : valRev (a :: as) < valRev (b :: bs) := by
          have hva2 : valRev as < MODULUS ^ bs.length := hlen2 ▸ hva
          have hstep : (a + 1) * MODULUS ^ bs.length ≤ b * MODULUS ^ bs.length :=
            Nat.mul_le_mul_right _ (by omega)
          have hexp : (a + 1) * MODULUS ^ bs.length
              = a * MODULUS ^ bs.length + MODULUS ^ bs.length := by ring
          simp only [valRev, hlen2]
          omega
        simp [cmpRev, h1, compare_lt_iff_lt.mpr h2]
      · subst hab
        have h1 : compare a a = Ordering.eq := compare_eq_iff_eq.mpr rfl
        have heads : valRev (a :: as) = a * MODULUS ^ bs.length + valRev as := by
          simp [valRev, hlen2]
        have heads2 : valRev (a :: bs) = a * MODULUS ^ bs.length + valRev bs := by
          simp [valRev]
        have htail := ih bs hlen2 (fun x h => hx x (by simp [h]))
          (fun y h => hy y (by simp [h]))
        have hcomp : compare (valRev (a :: as)) (valRev (a :: bs))
            = compare (valRev as) (valRev bs) := by
          rw [heads, heads2]
          rcases lt_trichotomy (valRev as) (valRev bs) with h | h | h
          · rw [compare_lt_iff_lt.mpr h, compare_lt_iff_lt.mpr (by omega)]
          · rw [h, compare_eq_iff_eq.mpr rfl, compare_eq_iff_eq.mpr rfl]
          · rw [compare_gt_iff_gt.mpr h, compare_gt_iff_gt.mpr (by omega)]
        simp only [cmpRev, h1, htail, hcomp]
      · have h1 : compare a b = Ordering.gt := compare_gt_iff_gt.mpr hab
        have h2 : valRev (b :: bs) < valRev (a :: as) := by
          have hstep : (b + 1) * MODULUS ^ bs.length ≤ a * MODULUS ^ bs.length :=
            Nat.mul_le_mul_right _ (by omega)
          have hexp : (b + 1) * MODULUS ^ bs.length
              = b * MODULUS ^ bs.length + MODULUS ^ bs.length := by ring
          simp only [valRev, hlen2]
          omega
        simp [cmpRev, h1, compare_gt_iff_gt.mpr h2]

namespace Bigint2048

theorem isZero_iff (a : Bigint2048) : a.isZero = true ↔ valN a.fields = 0 := by
  simp [isZero, List.all_eq_true, valN_eq_zero_iff]

theorem toBigInt_eq_zero_iff (a : Bigint2048) :
    a.toBigInt = 0 ↔ valN a.fields = 0 := by
  unfold toBigInt
  by_cases h : a.negative <;> simp [h]

theorem toBigInt_of_plainSign (a : Bigint2048)
    (h : (a.negative && !a.isZero) = false) :
    a.toBigInt = (valN a.fields : Int) := by
  unfold toBigInt
  by_cases hn : a.negative
  · have hz : a.isZero = true := by
      cases hiz : a.isZero
      · rw [hn, hiz] at h; simp at h
      · rfl
    have := (isZero_iff a).mp hz
    simp [hn, this]
  · simp [hn]

theorem toBigInt_of_negSign (a : Bigint2048)
    (h : (a.negative && !a.isZero) = true) :
    a.toBigInt = -(valN a.fields : Int) ∧ valN a.fields ≠ 0 := by
  simp only [Bool.and_eq_true, Bool.not_eq_true'] at h
  refine ⟨by simp [toBigInt, h.1], ?_⟩
  intro hz
  have : a.isZero = true := (isZero_iff a).mpr hz
  rw [this] at h
  exact absurd h.2 (by simp)

theorem compare_natCast (m n : Nat) :
    compare (m : Int) (n : Int) = compare m n := by
  rcases lt_trichotomy m n with h | h | h
  · rw [compare_lt_iff_lt.mpr h, compare_lt_iff_lt.mpr (by exact_mod_cast h)]
  · rw [h, compare_eq_iff_eq.mpr rfl, compare_eq_iff_eq.mpr rfl]
  · rw [compare_gt_iff_gt.mpr h, compare_gt_iff_gt.mpr (by exact_mod_cast h)]

/-- Magnitude scan of `cmp` computes the comparison of the limb values. -/
theorem cmp_mag (a b : Bigint2048) (ha : Wf a) (hb : Wf b) :
    cmpRev a.fields.reverse b.fields.reverse
      = compare (valN a.fields) (valN b.fields) := by
  rw [cmpRev_spec _ _ (by simp [ha.1, hb.1])
    (fun x hx => ha.2 x (List.mem_reverse.mp hx))
    (fun y hy => hb.2 y (List.mem_reverse.mp hy)),
    valRev_reverse, valRev_reverse]

/-- The three-way comparison agrees with the comparison of the signed
values; in particular both zero representations compare equal. -/
theorem cmp_spec (a b : Bigint2048) (ha : Wf a) (hb : Wf b) :
    cmp a b = compare a.toBigInt b.toBigInt := by
  unfold cmp
  rw [cmp_mag a b ha hb]
  cases hA : (a.negative && !a.isZero) <;> cases hB : (b.negative && !b.isZero)
  · rw [toBigInt_of_plainSign a hA, toBigInt_of_plainSign b hB, compare_natCast]
    simp
  · obtain ⟨hbv, hbnz⟩ := toBigInt_of_negSign b hB
    rw [toBigInt_of_plainSign a hA, hbv]
    have : -((valN b.fields : Nat) : Int) < (valN a.fields : Nat) := by
      have : (0:Int) < (valN b.fields : Nat) := by exact_mod_cast Nat.pos_of_ne_zero hbnz
      omega
    rw [compare_gt_iff_gt.mpr this]
    simp
  · obtain ⟨hav, hanz⟩ := toBigInt_of_negSign a hA
    rw [toBigInt_of_plainSign b hB, hav]
    have : -((valN a.fields : Nat) : Int) < (valN b.fields : Nat) := by
      have : (0:Int) < (valN a.fields : Nat) := by exact_mod_cast Nat.pos_of_ne_zero hanz
      omega
    rw [compare_lt_iff_lt.mpr this]
    simp
  · obtain ⟨hav, _⟩ := toBigInt_of_negSign a hA
    obtain ⟨hbv, _⟩ := toBigInt_of_negSign b hB
    rw [hav, hbv]
    simp only [Bool.true_and, Bool.not_true, Bool.false_and, if_neg, ite_false]
    rcases lt_trichotomy (valN a.fields) (valN b.fields) with h | h | h
    · rw [compare_lt_iff_lt.mpr h,
        compare_gt_iff_gt.mpr (show -((valN b.fields : Nat) : Int)
          < -((valN a.fields : Nat) : Int) by exact_mod_cast neg_lt_neg (by exact_mod_cast h))]
      rfl
    · rw [h, compare_eq_iff_eq.mpr rfl, compare_eq_iff_eq.mpr rfl]
      rfl
    · rw [compare_gt_iff_gt.mpr h,
        compare_lt_iff_lt.mpr (show -((valN a.fields : Nat) : Int)
          < -((valN b.fields : Nat) : Int) by exact_mod_cast neg_lt_neg (by exact_mod_cast h))]
      rfl

/-- Equality test agrees with value equality for well-formed inputs. -/
theorem equals_iff (a b : Bigint2048) (ha : Wf a) (hb : Wf b) :
    a.equals b = true ↔ a.toBigInt = b.toBigInt := by
  unfold equals
  simp only [Bool.or_eq_true, Bool.and_eq_true, List.all_eq_true, beq_iff_eq]
  constructor
  · rintro (⟨h1, h2⟩ | ⟨h1, h2⟩)
    · have hz1 : valN a.fields = 0 := (valN_eq_zero_iff _).mpr h1
      have hz2 : valN b.fields = 0 := (valN_eq_zero_iff _).mpr h2
      rw [(toBigInt_eq_zero_iff a).mpr hz1, (toBigInt_eq_zero_iff b).mpr hz2]
    · unfold toBigInt
      rw [h1, h2]
  · intro h
    by_cases hz : valN a.fields = 0
    · left
      have hzb : valN b.fields = 0 := by
        rw [← toBigInt_eq_zero_iff, ← h, toBigInt_eq_zero_iff]; exact hz
      exact ⟨(valN_eq_zero_iff _).mp hz, (valN_eq_zero_iff _).mp hzb⟩
    · right
      have hma : (0:Int) < (valN a.fields : Int) := by
        exact_mod_cast Nat.pos_of_ne_zero hz
      have hmb : (0:Int) ≤ (valN b.fields : Int) := by positivity
      have habs : valN a.fields = valN b.fields ∧ a.negative = b.negative := by
        unfold toBigInt at h
        cases hn1 : a.negative <;> cases hn2 : b.negative <;>
          rw [hn1, hn2] at h <;> simp only [if_true, if_false, ite_true, ite_false,
            Bool.false_eq_true, if_neg, not_false_iff] at h
        · exact ⟨by exact_mod_cast h, rfl⟩
        · exfalso; omega
        · exfalso; omega
        · exact ⟨by exact_mod_cast neg_inj.mp h, rfl⟩
      exact ⟨habs.2, valN_inj _ _ (ha.1.trans hb.1.symm) ha.2 hb.2 habs.1⟩

theorem limbList_zero (n : Nat) : ∀ l ∈ limbList n 0, l = 0 := by
  intro l hl
  have := valN_limbList n 0
  rw [Nat.zero_mod] at this
  exact (valN_eq_zero_iff _).mp this l hl

/-- Comparison against the `ZERO` constant detects a zero value without any
well-formedness assumption (all-zero limbs mean value zero in any case). -/
theorem equals_zero_iff (a : Bigint2048) :
    a.equals ZERO = true ↔ a.toBigInt = 0 := by
  unfold equals
  simp only [Bool.or_eq_true, Bool.and_eq_true, List.all_eq_true, beq_iff_eq]
  rw [toBigInt_eq_zero_iff]
  constructor
  · rintro (⟨h1, _⟩ | ⟨_, h2⟩)
    · exact (valN_eq_zero_iff _).mpr h1
    · rw [h2]
      exact (valN_eq_zero_iff _).mpr (limbList_zero LIMB_NUM)
  · intro h
    left
    exact ⟨(valN_eq_zero_iff _).mp h, limbList_zero LIMB_NUM⟩

end Bigint2048

theorem two_modulus_lt_nativeP : 2 * MODULUS < nativeP := by decide

theorem fadd_small (x y : Nat) (h : x + y < nativeP) : fadd x y = x + y := by
  unfold fadd; exact Nat.mod_eq_of_lt h

theorem fsub_of_le (x y : Nat) (hyx : y ≤ x) (hx : x < nativeP) :
    fsub x y = x - y := by
  unfold fsub
  rw [show x + nativeP - y = (x - y) + nativeP by omega, Nat.add_mod_right]
  exact Nat.mod_eq_of_lt (by omega)

theorem fsub_of_gt (x y : Nat) (hxy : x < y) (hy : y ≤ nativeP) :
    fsub x y = x + nativeP - y := by
  unfold fsub
  exact Nat.mod_eq_of_lt (by omega)

/-- Behaviour of one limb of the magnitude-sum chain. -/
theorem addLimb_step (a b : Nat) (c : Bool) (ha : a < MODULUS) (hb : b < MODULUS) :
    fadd (fadd a b) (cond c 1 0) = a + b + cond c 1 0 := by
  have hP := two_modulus_lt_nativeP
  have h1 : fadd a b = a + b := fadd_small a b (by omega)
  rw [h1]
  exact fadd_small _ _ (by cases c <;> simp <;> omega)

/-- Behaviour of one limb of the magnitude-difference chain: the borrow is
signalled by the wrapped field value exceeding `MASK`. -/
theorem subLimb_step (a b : Nat) (c : Bool) (ha : a < MODULUS) (hb : b < MODULUS) :
    (b + cond c 1 0 ≤ a →
      fsub (fsub a b) (cond c 1 0) = a - b - cond c 1 0 ∧
      ¬ (fsub (fsub a b) (cond c 1 0) > MASK)) ∧
    (a < b + cond c 1 0 →
      fsub (fsub a b) (cond c 1 0) = nativeP + a - b - cond c 1 0 ∧
      fsub (fsub a b) (cond c 1 0) > MASK) := by
  have hP := two_modulus_lt_nativeP
  have hM : 0 < MODULUS := modulus_pos
  have hMASK : MASK = MODULUS - 1 := rfl
  constructor
  · intro hle
    have hcb : cond c 1 0 ≤ 1 := by cases c <;> simp
    have hba : b ≤ a := by omega
    have h1 : fsub a b = a - b := fsub_of_le a b hba (by omega)
    rw [h1, fsub_of_le _ _ (by omega) (by omega)]
    omega
  · intro hlt
    have hcb : cond c 1 0 ≤ 1 := by cases c <;> simp
    by_cases hba : b ≤ a
    · -- a ≥ b but a < b + carry: forces carry = 1 and a = b
      have hc1 : cond c 1 0 = 1 := by omega
      have hab : a = b := by omega
      have h1 : fsub a b = a - b := fsub_of_le a b hba (by omega)
      rw [h1, hab, Nat.sub_self, fsub_of_gt _ _ (by omega) (by omega)]
      omega
    · have h1 : fsub a b = a + nativeP - b := fsub_of_gt a b (by omega) (by omega)
      rw [h1, fsub_of_le _ _ (by omega) (by omega)]
      omega

theorem addLimbs_cons (a b : Nat) (as bs : List Nat) (c : Bool) :
    addLimbs (a :: as) (b :: bs) c =
      ((if decide (fadd (fadd a b) (cond c 1 0) > MASK)
          then fsub (fadd (fadd a b) (cond c 1 0)) MODULUS
          else fadd (fadd a b) (cond c 1 0)) ::
        (addLimbs as bs (decide (fadd (fadd a b) (cond c 1 0) > MASK))).1,
       (addLimbs as bs (decide (fadd (fadd a b) (cond c 1 0) > MASK))).2) := rfl

theorem subLimbs_cons (a b : Nat) (as bs : List Nat) (c : Bool) :
    subLimbs (a :: as) (b :: bs) c =
      ((if decide (fsub (fsub a b) (cond c 1 0) > MASK)
          then fadd (fsub (fsub a b) (cond c 1 0)) MODULUS
          else fsub (fsub a b) (cond c 1 0)) ::
        (subLimbs as bs (decide (fsub (fsub a b) (cond c 1 0) > MASK))).1,
       (subLimbs as bs (decide (fsub (fsub a b) (cond c 1 0) > MASK))).2) := rfl

theorem addLimbs_spec (as : List Nat) : ∀ (bs : List Nat) (c : Bool),
    as.length = bs.length →
    (∀ x ∈ as, x < MODULUS) → (∀ x ∈ bs, x < MODULUS) →
    (addLimbs as bs c).1.length = as.length ∧
    (∀ x ∈ (addLimbs as bs c).1, x < MODULUS) ∧
    valN (addLimbs as bs c).1 + (cond (addLimbs as bs c).2 1 0) * MODULUS ^ as.length
      = valN as + valN bs + cond c 1 0 := by
  induction as with
  | nil =>
    intro bs c hlen _ _
    cases bs with
    | nil => cases c <;> simp [addLimbs, valN]
    | cons b t => simp at hlen
  | cons a as ih =>
    intro bs c hlen hxa hxb
    cases bs with
    | nil => simp at hlen
    | cons b bs =>
      have hlen2 : as.length = bs.length := by simpa using hlen
      have ha : a < MODULUS := hxa a (by simp)
      have hb : b < MODULUS := hxb b (by simp)
      have hsum : fadd (fadd a b) (cond c 1 0) = a + b + cond c 1 0 :=
        addLimb_step a b c ha hb
      have hcb : cond c 1 0 ≤ 1 := by cases c <;> simp
      have hM : 0 < MODULUS := modulus_pos
      have hP := two_modulus_lt_nativeP
      rw [addLimbs_cons, hsum]
      obtain ⟨ihl, ihb, ihv⟩ := ih bs (decide (a + b + cond c 1 0 > MASK))
        hlen2 (fun x hx => hxa x (by simp [hx])) (fun x hx => hxb x (by simp [hx]))
      by_cases hcar : a + b + cond c 1 0 > MASK
      · have hMle : MODULUS ≤ a + b + cond c 1 0 := by unfold MASK at hcar; omega
        have hout : fsub (a + b + cond c 1 0) MODULUS = a + b + cond c 1 0 - MODULUS :=
          fsub_of_le _ _ hMle (by omega)
        rw [decide_eq_true hcar] at ihv ihl ihb ⊢
        refine ⟨by simpa using ihl, ?_, ?_⟩
        · intro x hx
          simp only [if_true, hout, List.mem_cons] at hx
          rcases hx with hx1 | hx
          · rw [hx1]; unfold MASK at hcar; omega
          · exact ihb x hx
        · simp only [if_true, hout, valN, List.length_cons]
          have h1 : MODULUS * valN (addLimbs as bs true).1
                + cond (addLimbs as bs true).2 1 0 * MODULUS ^ (as.length + 1)
              = MODULUS * (valN as + valN bs + 1) := by
            rw [pow_succ]
            calc MODULUS * valN (addLimbs as bs true).1
                  + cond (addLimbs as bs true).2 1 0 * (MODULUS ^ as.length * MODULUS)
                = MODULUS * (valN (addLimbs as bs true).1
                  + cond (addLimbs as bs true).2 1 0 * MODULUS ^ as.length) := by ring
            _ = MODULUS * (valN as + valN bs + 1) := by rw [ihv]; norm_num
          have h2 : MODULUS * (valN as + valN bs + 1)
              = MODULUS * valN as + MODULUS * valN bs + MODULUS := by ring
          omega
      · have hout : a + b + cond c 1 0 ≤ MASK := by omega
        rw [decide_eq_false hcar] at ihv ihl ihb ⊢
        refine ⟨by simpa using ihl, ?_, ?_⟩
        · intro x hx
          simp only [if_false, List.mem_cons, Bool.false_eq_true] at hx
          rcases hx with hx1 | hx
          · rw [hx1]; unfold MASK at hout; omega
          · exact ihb x hx
        · simp only [if_false, valN, List.length_cons, Bool.false_eq_true]
          have h1 : MODULUS * valN (addLimbs as bs false).1
                + cond (addLimbs as bs false).2 1 0 * MODULUS ^ (as.length + 1)
              = MODULUS * (valN as + valN bs) := by
            rw [pow_succ]
            calc MODULUS * valN (addLimbs as bs false).1
                  + cond (addLimbs as bs false).2 1 0 * (MODULUS ^ as.length * MODULUS)
                = MODULUS * (valN (addLimbs as bs false).1
                  + cond (addLimbs as bs false).2 1 0 * MODULUS ^ as.length) := by ring
            _ = MODULUS * (valN as + valN bs) := by rw [ihv]; norm_num
          have h2 : MODULUS * (valN as + valN bs)
              = MODULUS * valN as + MODULUS * valN bs := by ring
          omega

theorem subLimbs_spec (as : List Nat) : ∀ (bs : List Nat) (c : Bool),
    as.length = bs.length →
    (∀ x ∈ as, x < MODULUS) → (∀ x ∈ bs, x < MODULUS) →
    (subLimbs as bs c).1.length = as.length ∧
    (∀ x ∈ (subLimbs as bs c).1, x < MODULUS) ∧
    (valN (subLimbs as bs c).1 : Int)
      = (valN as : Int) - valN bs - cond c 1 0
        + (cond (subLimbs as bs c).2 1 0) * (MODULUS : Int) ^ as.length := by
  induction as with
  | nil =>
    intro bs c hlen _ _
    cases bs with
    | nil => cases c <;> simp [subLimbs, valN]
    | cons b t => simp at hlen
  | cons a as ih =>
    intro bs c hlen hxa hxb
    cases bs with
    | nil => simp at hlen
    | cons b bs =>
      have hlen2 : as.length = bs.length := by simpa using hlen
      have ha : a < MODULUS := hxa a (by simp)
      have hb : b < MODULUS := hxb b (by simp)
      have hcb : cond c 1 0 ≤ 1 := by cases c <;> simp
      have hM : 0 < MODULUS := modulus_pos
      have hP := two_modulus_lt_nativeP
      have hstep := subLimb_step a b c ha hb
      rw [subLimbs_cons]
      by_cases hle : b + cond c 1 0 ≤ a
      · obtain ⟨hs, hnc⟩ := hstep.1 hle
        have hdec : decide (fsub (fsub a b) (cond c 1 0) > MASK) = false :=
          decide_eq_false hnc
        rw [hdec, hs]
        obtain ⟨ihl, ihb, ihv⟩ := ih bs false hlen2
          (fun x hx => hxa x (by simp [hx])) (fun x hx => hxb x (by simp [hx]))
        simp only [Bool.cond_false] at ihv
        refine ⟨by simpa using ihl, ?_, ?_⟩
        · intro x hx
          simp only [if_false, List.mem_cons, Bool.false_eq_true] at hx
          rcases hx with hx1 | hx
          · rw [hx1]; omega
          · exact ihb x hx
        · simp only [if_false, valN, List.length_cons, Bool.false_eq_true]
          have hcast : ((a - b - cond c 1 0 : Nat) : Int)
              = (a : Int) - b - cond c 1 0 := by
            cases c <;> simp only [Bool.cond_true, Bool.cond_false] at hle ⊢ <;>
              push_cast <;> omega
          have h1 : (MODULUS : Int) * (valN (subLimbs as bs false).1)
              = MODULUS * (valN as : Int) - MODULUS * valN bs
                + cond (subLimbs as bs false).2 1 0 * (MODULUS:Int) ^ (as.length + 1) := by
            rw [ihv]
            ring
          push_cast
          push_cast at hcast h1
          omega
      · obtain ⟨hs, hyc⟩ := hstep.2 (by omega)
        have hdec : decide (fsub (fsub a b) (cond c 1 0) > MASK) = true :=
          decide_eq_true hyc
        rw [hdec, hs]
        have hout : fadd (nativeP + a - b - cond c 1 0) MODULUS
            = a + MODULUS - b - cond c 1 0 := by
          unfold fadd
          rw [show nativeP + a - b - cond c 1 0 + MODULUS
              = (a + MODULUS - b - cond c 1 0) + nativeP by omega, Nat.add_mod_right]
          exact Nat.mod_eq_of_lt (by omega)
        rw [hout]
        obtain ⟨ihl, ihb, ihv⟩ := ih bs true hlen2
          (fun x hx => hxa x (by simp [hx])) (fun x hx => hxb x (by simp [hx]))
        simp only [Bool.cond_true] at ihv
        refine ⟨by simpa using ihl, ?_, ?_⟩
        · intro x hx
          simp only [if_true, List.mem_cons] at hx
          rcases hx with hx1 | hx
          · rw [hx1]; omega
          · exact ihb x hx
        · simp only [if_true, valN, List.length_cons]
          have hcast : ((a + MODULUS - b - cond c 1 0 : Nat) : Int)
              = (a : Int) + MODULUS - b - cond c 1 0 := by
            cases c <;> simp only [Bool.cond_true, Bool.cond_false] <;>
              push_cast <;> omega
          have h1 : (MODULUS : Int) * (valN (subLimbs as bs true).1)
              = MODULUS * (valN as : Int) - MODULUS * valN bs - MODULUS
                + cond (subLimbs as bs true).2 1 0 * (MODULUS:Int) ^ (as.length + 1) := by
            rw [ihv]
            ring
          push_cast
          push_cast at hcast h1
          omega

/-- When the minuend has at least the subtrahend's value, the difference
chain ends with a clear borrow and computes the exact difference. -/
theorem subLimbs_le (as bs : List Nat) (hlen : as.length = bs.length)
    (hxa : ∀ x ∈ as, x < MODULUS) (hxb : ∀ x ∈ bs, x < MODULUS)
    (hle : valN bs ≤ valN as) :
    (subLimbs as bs false).2 = false ∧
    valN (subLimbs as bs false).1 = valN as - valN bs ∧
    (subLimbs as bs false).1.length = as.length ∧
    (∀ x ∈ (subLimbs as bs false).1, x < MODULUS) := by
  obtain ⟨hl, hbnd, hv⟩ := subLimbs_spec as bs false hlen hxa hxb
  have hlt : valN (subLimbs as bs false).1 < MODULUS ^ as.length := by
    have := valN_lt (subLimbs as bs false).1 hbnd
    rwa [hl] at this
  have hcar : (subLimbs as bs false).2 = false := by
    cases hc : (subLimbs as bs false).2
    · rfl
    · exfalso
      rw [hc] at hv
      simp only [cond] at hv
      have hcast : ((MODULUS ^ as.length : Nat) : Int) = (MODULUS:Int) ^ as.length := by
        push_cast; ring
      omega
  rw [hcar] at hv
  simp only [cond] at hv
  refine ⟨hcar, ?_, hl, hbnd⟩
  omega

namespace Bigint2048

theorem abs_wf (a : Bigint2048) (ha : Wf a) : Wf a.abs := ⟨ha.1, ha.2⟩

theorem neg_wf (a : Bigint2048) (ha : Wf a) : Wf a.neg := ⟨ha.1, ha.2⟩

@[simp] theorem abs_fields (a : Bigint2048) : a.abs.fields = a.fields := rfl

@[simp] theorem neg_fields (a : Bigint2048) : a.neg.fields = a.fields := rfl

theorem toBigInt_abs (a : Bigint2048) :
    a.abs.toBigInt = (valN a.fields : Int) := by
  simp [abs, toBigInt]

theorem toBigInt_neg (a : Bigint2048) : a.neg.toBigInt = -a.toBigInt := by
  cases h : a.negative <;> simp [neg, toBigInt, h]

theorem compare_beq_lt (m n : Nat) :
    (compare m n == Ordering.lt) = decide (m < n) := by
  rcases lt_trichotomy m n with h | h | h
  · rw [compare_lt_iff_lt.mpr h, decide_eq_true h]; rfl
  · rw [compare_eq_iff_eq.mpr h, decide_eq_false (by omega)]; rfl
  · rw [compare_gt_iff_gt.mpr h, decide_eq_false (by omega)]; rfl

theorem lessThan_abs (a b : Bigint2048) (ha : Wf a) (hb : Wf b) :
    a.abs.lessThan b.abs = decide (valN a.fields < valN b.fields) := by
  unfold lessThan
  rw [cmp_spec _ _ (abs_wf a ha) (abs_wf b hb), toBigInt_abs, toBigInt_abs,
    compare_natCast, compare_beq_lt]

/-- Success and correctness of `add` whenever the unconditional
magnitude-sum chain does not overflow, i.e. `|a| + |b| ≤ 2^2088 - 1`. -/
theorem add_spec (a b : Bigint2048) (ha : Wf a) (hb : Wf b)
    (hsum : valN a.fields + valN b.fields ≤ MAX_NAT) :
    ∃ cc, a.add b = some cc ∧ Wf cc ∧
      cc.toBigInt = a.toBigInt + b.toBigInt ∧
      valN cc.fields ≤ valN a.fields + valN b.fields := by
  have hlen : a.fields.length = b.fields.length := ha.1.trans hb.1.symm
  obtain ⟨al, ab2, av⟩ := addLimbs_spec a.fields b.fields false hlen ha.2 hb.2
  have hpow : MODULUS ^ a.fields.length = 2 ^ 2088 := by rw [ha.1, modulus_pow_limbs]
  have hMAXdef : MAX_NAT = 2 ^ 2088 - 1 := rfl
  have hpow_pos : (0:Nat) < 2 ^ 2088 := by positivity
  have hcar : (addLimbs a.fields b.fields false).2 = false := by
    cases hc : (addLimbs a.fields b.fields false).2
    · rfl
    · exfalso
      rw [hc, hpow] at av
      simp only [Bool.cond_true, Bool.cond_false] at av
      omega
  rw [hcar] at av
  simp only [Bool.cond_true, Bool.cond_false] at av
  have av2 : valN (addLimbs a.fields b.fields false).1
      = valN a.fields + valN b.fields := by omega
  by_cases hlt : valN a.fields < valN b.fields
  · -- |a| < |b|: bigger is b
    obtain ⟨scar, sv, sl, sb2⟩ := subLimbs_le b.fields a.fields hlen.symm hb.2 ha.2
      (le_of_lt hlt)
    have heq : a.add b = some
        { negative := if !(a.negative == b.negative)
            then b.negative == true else a.negative,
          fields := if !(a.negative == b.negative)
            then (subLimbs b.fields a.fields false).1
            else (addLimbs a.fields b.fields false).1 } := by
      unfold add
      rw [lessThan_abs a b ha hb, decide_eq_true hlt]
      simp only [if_true, hcar, scar, Bool.false_eq_true, if_false]
    refine ⟨_, heq, ?_, ?_, ?_⟩
    · constructor
      · cases hflag : !(a.negative == b.negative) <;>
          simp only [if_true, if_false, Bool.false_eq_true]
        · rw [al, ha.1]
        · rw [sl, hb.1]
      · cases hflag : !(a.negative == b.negative) <;>
          simp only [if_true, if_false, Bool.false_eq_true]
        · exact ab2
        · exact sb2
    · cases hna : a.negative <;> cases hnb : b.negative <;>
        simp only [toBigInt, hna, hnb] <;>
        simp [av2, sv] <;> push_cast <;> omega
    · cases hflag : !(a.negative == b.negative) <;>
        simp only [if_true, if_false, Bool.false_eq_true]
      · rw [av2]
      · rw [sv]; omega
  · -- |a| ≥ |b|: bigger is a
    obtain ⟨scar, sv, sl, sb2⟩ := subLimbs_le a.fields b.fields hlen ha.2 hb.2
      (by omega)
    have heq : a.add b = some
        { negative := if !(a.negative == b.negative)
            then b.negative == false else a.negative,
          fields := if !(a.negative == b.negative)
            then (subLimbs a.fields b.fields false).1
            else (addLimbs a.fields b.fields false).1 } := by
      unfold add
      rw [lessThan_abs a b ha hb, decide_eq_false hlt]
      simp only [if_false, hcar, scar, Bool.false_eq_true]
    refine ⟨_, heq, ?_, ?_, ?_⟩
    · constructor
      · cases hflag : !(a.negative == b.negative) <;>
          simp only [if_true, if_false, Bool.false_eq_true]
        · rw [al, ha.1]
        · rw [sl, ha.1]
      · cases hflag : !(a.negative == b.negative) <;>
          simp only [if_true, if_false, Bool.false_eq_true]
        · exact ab2
        · exact sb2
    · cases hna : a.negative <;> cases hnb : b.negative <;>
        simp only [toBigInt, hna, hnb] <;>
        simp [av2, sv] <;> push_cast <;> omega
    · cases hflag : !(a.negative == b.negative) <;>
        simp only [if_true, if_false, Bool.false_eq_true]
      · rw [av2]
      · rw [sv]; omega

end Bigint2048

theorem valZ_addP (u : List Int) : ∀ v : List Int,
    valZ (addP u v) = valZ u + valZ v := by
  induction u with
  | nil => intro v; simp [addP, valZ]
  | cons x xs ih =>
    intro v
    cases v with
    | nil => simp [addP, valZ]
    | cons y ys => simp only [addP, valZ, ih]; ring

theorem valZ_subP (v : List Int) : ∀ u : List Int,
    valZ (subP u v) = valZ u - valZ v := by
  induction v with
  | nil => intro u; cases u <;> simp [subP, valZ]
  | cons y ys ih =>
    intro u
    cases u with
    | nil => simp only [subP, valZ, ih]; ring
    | cons x xs => simp only [subP, valZ, ih]; ring

theorem valZ_map_mul (k : Int) (ys : List Int) :
    valZ (ys.map (fun z => k * z)) = k * valZ ys := by
  induction ys with
  | nil => simp [valZ]
  | cons y ys ih => simp only [List.map_cons, valZ, ih]; ring

theorem valZ_convP (xs : List Int) : ∀ ys : List Int,
    valZ (convP xs ys) = valZ xs * valZ ys := by
  induction xs with
  | nil => intro ys; simp [convP, valZ]
  | cons x xs ih =>
    intro ys
    simp only [convP, valZ_addP, valZ_map_mul, valZ, ih]
    ring

theorem valZ_castL (l : List Nat) : valZ (castL l) = (valN l : Int) := by
  induction l with
  | nil => simp [castL, valZ, valN]
  | cons a t ih => simp only [castL, valZ, valN, ih]; push_cast; ring

theorem valZ_deltaList (X Y Q P R : List Nat) :
    valZ (deltaList X Y Q P R)
      = (valN X : Int) * valN Y - (valN Q : Int) * valN P - valN R := by
  unfold deltaList
  rw [valZ_subP, valZ_subP, valZ_convP, valZ_convP,
    valZ_castL, valZ_castL, valZ_castL, valZ_castL, valZ_castL]

theorem castL_bounds (l : List Nat) (h : ∀ x ∈ l, x < MODULUS) :
    ∀ z ∈ castL l, 0 ≤ z ∧ z ≤ (MODULUS : Int) - 1 := by
  induction l with
  | nil => simp [castL]
  | cons a t ih =>
    intro z hz
    simp only [castL, List.mem_cons] at hz
    rcases hz with hz1 | hz
    · have := h a (by simp)
      constructor
      · rw [hz1]; positivity
      · rw [hz1]; omega
    · exact ih (fun x hx => h x (by simp [hx])) z hz

theorem castL_length (l : List Nat) : (castL l).length = l.length := by
  induction l with
  | nil => rfl
  | cons a t ih => simp [castL, ih]

theorem addP_bounds (m n : Int) (hm : 0 ≤ m) (hn : 0 ≤ n) (u : List Int) :
    ∀ v : List Int,
    (∀ a ∈ u, 0 ≤ a ∧ a ≤ m) → (∀ b ∈ v, 0 ≤ b ∧ b ≤ n) →
    ∀ z ∈ addP u v, 0 ≤ z ∧ z ≤ m + n := by
  induction u with
  | nil =>
    intro v _ hv z hz
    simp only [addP] at hz
    obtain ⟨h1, h2⟩ := hv z hz
    exact ⟨h1, by omega⟩
  | cons x xs ih =>
    intro v hu hv z hz
    cases v with
    | nil =>
      simp only [addP] at hz
      obtain ⟨h1, h2⟩ := hu z hz
      exact ⟨h1, by omega⟩
    | cons y ys =>
      simp only [addP, List.mem_cons] at hz
      obtain ⟨hx1, hx2⟩ := hu x (by simp)
      obtain ⟨hy1, hy2⟩ := hv y (by simp)
      rcases hz with hz1 | hz
      · exact ⟨by omega, by omega⟩
      · exact ih ys (fun a ha => hu a (by simp [ha])) (fun b hb => hv b (by simp [hb])) z hz

theorem subP_bounds (lo hi h2 : Int) (hlo : lo ≤ 0) (hhi : 0 ≤ hi) (hh2 : 0 ≤ h2)
    (v : List Int) : ∀ u : List Int,
    (∀ a ∈ u, lo ≤ a ∧ a ≤ hi) → (∀ b ∈ v, 0 ≤ b ∧ b ≤ h2) →
    ∀ z ∈ subP u v, lo - h2 ≤ z ∧ z ≤ hi := by
  induction v with
  | nil =>
    intro u hu _ z hz
    cases u with
    | nil => simp [subP] at hz
    | cons x xs =>
      simp only [subP] at hz
      obtain ⟨h1a, h1b⟩ := hu z hz
      exact ⟨by omega, h1b⟩
  | cons y ys ih =>
    intro u hu hv z hz
    obtain ⟨hy1, hy2⟩ := hv y (by simp)
    cases u with
    | nil =>
      simp only [subP, List.mem_cons] at hz
      rcases hz with hz1 | hz
      · exact ⟨by omega, by omega⟩
      · exact ih [] (by simp) (fun b hb => hv b (by simp [hb])) z hz
    | cons x xs =>
      simp only [subP, List.mem_cons] at hz
      obtain ⟨hx1, hx2⟩ := hu x (by simp)
      rcases hz with hz1 | hz
      · exact ⟨by omega, by omega⟩
      · exact ih xs (fun a ha => hu a (by simp [ha])) (fun b hb => hv b (by simp [hb])) z hz

theorem convP_bounds (xs : List Int) : ∀ ys : List Int,
    (∀ a ∈ xs, 0 ≤ a ∧ a ≤ (MODULUS:Int) - 1) →
    (∀ b ∈ ys, 0 ≤ b ∧ b ≤ (MODULUS:Int) - 1) →
    ∀ z ∈ convP xs ys, 0 ≤ z ∧ z ≤ (xs.length : Int) * ((MODULUS:Int) - 1) ^ 2 := by
  induction xs with
  | nil => simp [convP]
  | cons x xs ih =>
    intro ys hx hy z hz
    have hM1 : (0:Int) ≤ (MODULUS:Int) - 1 := by
      have := modulus_pos; omega
    obtain ⟨hx1, hx2⟩ := hx x (by simp)
    have hmap : ∀ b ∈ ys.map (fun z2 => x * z2),
        0 ≤ b ∧ b ≤ ((MODULUS:Int) - 1) ^ 2 := by
      intro b hb
      obtain ⟨w, hw, rfl⟩ := List.mem_map.mp hb
      obtain ⟨hw1, hw2⟩ := hy w hw
      constructor
      · positivity
      · calc x * w ≤ ((MODULUS:Int) - 1) * ((MODULUS:Int) - 1) :=
              mul_le_mul hx2 hw2 hw1 hM1
        _ = ((MODULUS:Int) - 1) ^ 2 := by ring
    have htail : ∀ b ∈ (0 : Int) :: convP xs ys,
        0 ≤ b ∧ b ≤ (xs.length : Int) * ((MODULUS:Int) - 1) ^ 2 := by
      intro b hb
      rcases List.mem_cons.mp hb with hb1 | hb
      · rw [hb1]
        exact ⟨le_refl 0, by positivity⟩
      · exact ih ys (fun a ha => hx a (by simp [ha])) hy b hb
    have := addP_bounds (((MODULUS:Int) - 1) ^ 2)
      ((xs.length : Int) * ((MODULUS:Int) - 1) ^ 2) (by positivity) (by positivity)
      _ _ hmap htail z (by simpa [convP] using hz)
    obtain ⟨h1, h2⟩ := this
    refine ⟨h1, ?_⟩
    calc z ≤ ((MODULUS:Int) - 1) ^ 2 + (xs.length : Int) * ((MODULUS:Int) - 1) ^ 2 := h2
    _ = (((x :: xs).length : Int)) * ((MODULUS:Int) - 1) ^ 2 := by
        rw [List.length_cons]
        push_cast
        ring

/-- Entry bound for the difference polynomial with range-checked limbs. -/
theorem deltaList_bounds (X Y Q P R : List Nat)
    (hX : ∀ x ∈ X, x < MODULUS) (hY : ∀ x ∈ Y, x < MODULUS)
    (hQ : ∀ x ∈ Q, x < MODULUS) (hP : ∀ x ∈ P, x < MODULUS)
    (hR : ∀ x ∈ R, x < MODULUS)
    (hXl : X.length = LIMB_NUM) (hQl : Q.length = LIMB_NUM) :
    ∀ z ∈ deltaList X Y Q P R,
      -(18 * ((MODULUS:Int) - 1) ^ 2 + ((MODULUS:Int) - 1)) ≤ z ∧
      z ≤ 18 * ((MODULUS:Int) - 1) ^ 2 + ((MODULUS:Int) - 1) := by
  have hM1 : (0:Int) ≤ (MODULUS:Int) - 1 := by have := modulus_pos; omega
  have hXY := convP_bounds (castL X) (castL Y) (castL_bounds X hX) (castL_bounds Y hY)
  have hQP := convP_bounds (castL Q) (castL P) (castL_bounds Q hQ) (castL_bounds P hP)
  rw [castL_length, hXl] at hXY
  rw [castL_length, hQl] at hQP
  have hXY2 : ∀ z ∈ convP (castL X) (castL Y),
      0 ≤ z ∧ z ≤ 18 * ((MODULUS:Int) - 1) ^ 2 := by
    intro z hz
    obtain ⟨h1, h2⟩ := hXY z hz
    refine ⟨h1, le_trans h2 ?_⟩
    norm_num [LIMB_NUM]
  have hQP2 : ∀ z ∈ convP (castL Q) (castL P),
      0 ≤ z ∧ z ≤ 18 * ((MODULUS:Int) - 1) ^ 2 := by
    intro z hz
    obtain ⟨h1, h2⟩ := hQP z hz
    refine ⟨h1, le_trans h2 ?_⟩
    norm_num [LIMB_NUM]
  have hsub1 := subP_bounds 0 (18 * ((MODULUS:Int) - 1) ^ 2)
    (18 * ((MODULUS:Int) - 1) ^ 2) (le_refl 0) (by positivity) (by positivity)
    (convP (castL Q) (castL P)) (convP (castL X) (castL Y)) hXY2 hQP2
  have hsub2 := subP_bounds (-(18 * ((MODULUS:Int) - 1) ^ 2))
    (18 * ((MODULUS:Int) - 1) ^ 2) ((MODULUS:Int) - 1)
    (neg_nonpos.mpr (by positivity)) (by positivity) hM1
    (castL R) _ (fun z hz => by
      obtain ⟨h1, h2⟩ := hsub1 z hz
      exact ⟨by omega, h2⟩)
    (castL_bounds R hR)
  intro z hz
  obtain ⟨h1, h2⟩ := hsub2 z (by simpa [deltaList] using hz)
  constructor
  · omega
  · have : (0:Int) ≤ (MODULUS:Int) - 1 := hM1
    omega

theorem nineteen_modulus_nat : 19 * MODULUS < 2 ^ 127 := by decide

/-- Completeness of the integer carry chain: when the coefficient list
represents zero and entries and incoming carry are bounded, every
divisibility and range constraint of `multiply`'s chain is satisfied. -/
theorem chainCheck_complete : ∀ (l : List Int) (c : Int),
    (∀ d ∈ l, -(18 * ((MODULUS:Int) - 1) ^ 2 + ((MODULUS:Int) - 1)) ≤ d ∧
       d ≤ 18 * ((MODULUS:Int) - 1) ^ 2 + ((MODULUS:Int) - 1)) →
    -(19 * (MODULUS : Int)) ≤ c → c ≤ 19 * MODULUS →
    valZ l + c = 0 → chainCheck l c = true := by
  intro l
  induction l with
  | nil =>
    intro c _ _ _ hval
    simp only [valZ, zero_add] at hval
    simp [chainCheck, hval]
  | cons d rest ih =>
    intro c hbnd hc1 hc2 hval
    have hM1 : (1:Int) ≤ (MODULUS:Int) := by exact_mod_cast modulus_pos
    have hM20 : (20:Int) ≤ (MODULUS:Int) := by
      have h20 : 20 ≤ MODULUS := by unfold MODULUS LIMB_BITS; decide
      exact_mod_cast h20
    have hM127 : 19 * (MODULUS:Int) < 2 ^ 127 := by exact_mod_cast nineteen_modulus_nat
    obtain ⟨hd1, hd2⟩ := hbnd d (by simp)
    cases rest with
    | nil =>
      have : d + c = 0 := by
        simp only [valZ] at hval
        omega
      simp [chainCheck, this]
    | cons e rest2 =>
      have hsval : d + c = (MODULUS:Int) * (-(valZ (e :: rest2))) := by
        simp only [valZ] at hval ⊢
        ring_nf
        ring_nf at hval
        linarith
      have hc2v : (d + c).tdiv (MODULUS:Int) = -(valZ (e :: rest2)) := by
        rw [hsval, Int.mul_tdiv_cancel_left _ (by omega)]
      set T := valZ (e :: rest2) with hT
      have hTbound : -(19 * (MODULUS:Int)) ≤ -T ∧ -T ≤ 19 * (MODULUS:Int) := by
        have hub : (MODULUS:Int) * (-T) ≤ (MODULUS:Int) * (19 * MODULUS) := by
          rw [← hsval]
          nlinarith
        have hlb : (MODULUS:Int) * (-(19 * (MODULUS:Int))) ≤ (MODULUS:Int) * (-T) := by
          rw [← hsval]
          nlinarith
        constructor
        · exact le_of_mul_le_mul_left hlb (by omega)
        · exact le_of_mul_le_mul_left hub (by omega)
      have hdec1 : (d + c).tdiv (MODULUS:Int) * (MODULUS:Int) = d + c := by
        rw [hc2v, hsval]; ring
      have hdec2 : -(2:Int) ^ 127 ≤ (d + c).tdiv (MODULUS:Int) := by
        rw [hc2v]; omega
      have hdec3 : (d + c).tdiv (MODULUS:Int) < (2:Int) ^ 127 := by
        rw [hc2v]; omega
      have hrec : chainCheck (e :: rest2) ((d + c).tdiv (MODULUS:Int)) = true := by
        rw [hc2v]
        exact ih (-T) (fun z hz => hbnd z (by simp [hz])) hTbound.1 hTbound.2 (by omega)
      simp only [chainCheck, decide_eq_true hdec1, decide_eq_true hdec2,
        decide_eq_true hdec3, hrec, Bool.and_self, Bool.and_true, Bool.true_and]

/-- With range-checked limbs and a witness satisfying the integer identity
`X*Y = Q*P + R`, every constraint of the multiplication gadget holds. -/
theorem gadgetCheck_correct (X Y Q P R : List Nat)
    (hX : ∀ x ∈ X, x < MODULUS) (hY : ∀ x ∈ Y, x < MODULUS)
    (hQ : ∀ x ∈ Q, x < MODULUS) (hP : ∀ x ∈ P, x < MODULUS)
    (hR : ∀ x ∈ R, x < MODULUS)
    (hXl : X.length = LIMB_NUM) (hQl : Q.length = LIMB_NUM)
    (hid : valN X * valN Y = valN Q * valN P + valN R) :
    gadgetCheck X Y Q P R = true := by
  unfold gadgetCheck
  apply chainCheck_complete _ 0
    (deltaList_bounds X Y Q P R hX hY hQ hP hR hXl hQl)
    (neg_nonpos.mpr (by positivity)) (by positivity)
  rw [valZ_deltaList]
  have hidz : (valN X : Int) * valN Y = (valN Q : Int) * valN P + valN R := by
    exact_mod_cast hid
  linarith

namespace Bigint2048

theorem toBigInt_of_false (a : Bigint2048) (h : a.negative = false) :
    a.toBigInt = (valN a.fields : Int) := by
  simp [toBigInt, h]

theorem fromInt_natCast (n : Nat) (h : n < 2 ^ 2088) :
    fromInt (n : Int) = some (ofNat n) := by
  have h2 := (fromInt_spec (n : Int)).1 (by simpa using h)
  have hdec : decide ((n:Int) < 0) = false := decide_eq_false (by omega)
  rw [h2, Int.natAbs_ofNat, hdec]
  rfl

/-- Prover-side success of the multiplication gadget: for magnitude-only
operands with a positive modulus, whenever the witnessed quotient fits in
18 limbs the routine returns the canonical remainder `x*y mod p`. -/
theorem multiply_spec (x y p : Bigint2048) (hx : Wf x) (hy : Wf y) (hp : Wf p)
    (hnx : x.negative = false) (hny : y.negative = false) (hnp : p.negative = false)
    (hppos : 0 < valN p.fields)
    (hqfit : valN x.fields * valN y.fields / valN p.fields ≤ MAX_NAT) :
    multiply x y p
      = some (ofNat (valN x.fields * valN y.fields % valN p.fields)) := by
  have hMAXlt : MAX_NAT < 2 ^ 2088 := by unfold MAX_NAT; omega
  have htx := toBigInt_of_false x hnx
  have hty := toBigInt_of_false y hny
  have htp := toBigInt_of_false p hnp
  have hqlt : valN x.fields * valN y.fields / valN p.fields < 2 ^ 2088 := by omega
  have hrlt : valN x.fields * valN y.fields % valN p.fields < 2 ^ 2088 := by
    have h1 : valN x.fields * valN y.fields % valN p.fields < valN p.fields :=
      Nat.mod_lt _ hppos
    have h2 := valN_wf_lt p hp
    omega
  have hqv : ((valN x.fields : Int) * (valN y.fields : Int)).tdiv (valN p.fields : Int)
      = ((valN x.fields * valN y.fields / valN p.fields : Nat) : Int) := by
    rw [← Nat.cast_mul]
    exact (Int.ofNat_tdiv _ _).symm
  have hdm := Nat.div_add_mod (valN x.fields * valN y.fields) (valN p.fields)
  have hdmz : ((valN p.fields : Int))
        * ((valN x.fields * valN y.fields / valN p.fields : Nat) : Int)
        + ((valN x.fields * valN y.fields % valN p.fields : Nat) : Int)
      = (valN x.fields : Int) * (valN y.fields : Int) := by
    exact_mod_cast hdm
  have hrv : (valN x.fields : Int) * (valN y.fields : Int)
        - ((valN x.fields * valN y.fields / valN p.fields : Nat) : Int)
          * (valN p.fields : Int)
      = ((valN x.fields * valN y.fields % valN p.fields : Nat) : Int) := by
    linarith
  have hgadget : gadgetCheck x.fields y.fields
      (limbList LIMB_NUM (valN x.fields * valN y.fields / valN p.fields)) p.fields
      (limbList LIMB_NUM (valN x.fields * valN y.fields % valN p.fields)) = true := by
    apply gadgetCheck_correct _ _ _ _ _ hx.2 hy.2
      (limbList_lt _ _) hp.2 (limbList_lt _ _) hx.1 (limbList_length _ _)
    rw [valN_limbList, valN_limbList, modulus_pow_limbs,
      Nat.mod_eq_of_lt hqlt, Nat.mod_eq_of_lt hrlt]
    omega
  have hpne : ((valN p.fields : Int)) ≠ 0 := by
    have : valN p.fields ≠ 0 := by omega
    exact_mod_cast this
  unfold multiply
  rw [htx, hty, htp, if_neg hpne]
  rw [hqv, hrv, fromInt_natCast _ hqlt, fromInt_natCast _ hrlt]
  show (if gadgetCheck x.fields y.fields
      (limbList LIMB_NUM (valN x.fields * valN y.fields / valN p.fields)) p.fields
      (limbList LIMB_NUM (valN x.fields * valN y.fields % valN p.fields))
    then some (ofNat (valN x.fields * valN y.fields % valN p.fields)) else none)
    = some (ofNat (valN x.fields * valN y.fields % valN p.fields))
  rw [hgadget]
  rfl

theorem MAX_negative : MAX.negative = false := rfl

theorem MAX_wf : Wf MAX := ofNat_wf _

theorem MAX_val : valN MAX.fields = MAX_NAT :=
  ofNat_val _ (by unfold MAX_NAT; omega)

theorem MAX_NAT_pos : 0 < MAX_NAT := by
  unfold MAX_NAT
  have h : 2 ^ 1 ≤ 2 ^ 2088 := Nat.pow_le_pow_right (by omega) (by omega)
  omega

theorem mul_spec (a b : Bigint2048) (ha : Wf a) (hb : Wf b) :
    a.mul b = some (Bigint2048.mk (!(a.negative == b.negative))
      (limbList LIMB_NUM (valN a.fields * valN b.fields % MAX_NAT))) := by
  have hma : valN a.fields ≤ MAX_NAT := by
    have := valN_wf_lt a ha; unfold MAX_NAT; omega
  have hmb : valN b.fields ≤ MAX_NAT := by
    have := valN_wf_lt b hb; unfold MAX_NAT; omega
  have hqfit : valN a.abs.fields * valN b.abs.fields / valN MAX.fields ≤ MAX_NAT := by
    rw [abs_fields, abs_fields, MAX_val]
    calc valN a.fields * valN b.fields / MAX_NAT
        ≤ MAX_NAT * MAX_NAT / MAX_NAT :=
          Nat.div_le_div_right (Nat.mul_le_mul hma hmb)
    _ = MAX_NAT := Nat.mul_div_cancel _ MAX_NAT_pos
  unfold mul modMul
  rw [multiply_spec a.abs b.abs MAX (abs_wf a ha) (abs_wf b hb) MAX_wf rfl rfl
    MAX_negative (by rw [MAX_val]; exact MAX_NAT_pos) hqfit]
  simp only [Option.map_some, abs_fields, MAX_val]
  rfl

theorem mul_toBigInt (a b : Bigint2048) (ha : Wf a) (hb : Wf b) :
    ∃ m, a.mul b = some m ∧ Wf m ∧
      m.negative = !(a.negative == b.negative) ∧
      valN m.fields = valN a.fields * valN b.fields % MAX_NAT ∧
      (valN a.fields * valN b.fields < MAX_NAT →
        m.toBigInt = a.toBigInt * b.toBigInt) := by
  have hrlt : valN a.fields * valN b.fields % MAX_NAT < 2 ^ 2088 := by
    have h1 : valN a.fields * valN b.fields % MAX_NAT < MAX_NAT :=
      Nat.mod_lt _ MAX_NAT_pos
    unfold MAX_NAT at h1 ⊢
    omega
  have hv : valN (limbList LIMB_NUM (valN a.fields * valN b.fields % MAX_NAT))
      = valN a.fields * valN b.fields % MAX_NAT := by
    rw [valN_limbList, modulus_pow_limbs, Nat.mod_eq_of_lt hrlt]
  refine ⟨_, mul_spec a b ha hb,
    ⟨limbList_length _ _, limbList_lt _ _⟩, rfl, hv, ?_⟩
  intro hexact
  have hr : valN a.fields * valN b.fields % MAX_NAT
      = valN a.fields * valN b.fields := Nat.mod_eq_of_lt hexact
  rw [hr] at hv
  cases hna : a.negative <;> cases hnb : b.negative <;>
    simp only [toBigInt, hna, hnb, hr, hv] <;>
    simp <;> push_cast <;> ring

end Bigint2048

-- ---------------------------------------------------------------------------
-- Floor-division arithmetic facts used by floorDiv

theorem fmod_neg_bounds (a : Int) : ∀ {b : Int}, b < 0 →
    b < a.fmod b ∧ a.fmod b ≤ 0 := by
  intro b hb
  cases b with
  | ofNat n => exact absurd hb (Int.ofNat_nonneg n).not_lt
  | negSucc n =>
    have hns : (Int.negSucc n) = -((n : Int) + 1) := Int.negSucc_eq n
    cases a with
    | ofNat m =>
      cases m with
      | zero =>
        show Int.negSucc n < Int.fmod 0 (Int.negSucc n) ∧
          Int.fmod 0 (Int.negSucc n) ≤ 0
        rw [Int.zero_fmod]
        omega
      | succ k =>
        show Int.negSucc n < Int.subNatNat (k % (n + 1)) n ∧
          Int.subNatNat (k % (n + 1)) n ≤ 0
        rw [Int.subNatNat_eq_coe, hns]
        have h1 : k % (n + 1) < n + 1 := Nat.mod_lt _ (by omega)
        have h2 : ((k % (n + 1) : Nat) : Int) < (n : Int) + 1 := by exact_mod_cast h1
        constructor
        · omega
        · omega
    | negSucc m =>
      show Int.negSucc n < -((((m + 1) % (n + 1) : Nat)) : Int) ∧
        -((((m + 1) % (n + 1) : Nat)) : Int) ≤ 0
      rw [hns]
      have h1 : (m + 1) % (n + 1) < n + 1 := Nat.mod_lt _ (by omega)
      have h2 : (((m + 1) % (n + 1) : Nat) : Int) < (n : Int) + 1 := by exact_mod_cast h1
      have h3 : (0:Int) ≤ (((m + 1) % (n + 1) : Nat) : Int) := by positivity
      omega

/-- Uniqueness of floor division: any pair satisfying the identity and the
divisor-signed remainder interval is `(fdiv, fmod)`. -/
theorem fdiv_fmod_unique (lhs rhs q r : Int) (hrhs : rhs ≠ 0)
    (hid : rhs * q + r = lhs)
    (hpos : 0 < rhs → 0 ≤ r ∧ r < rhs)
    (hneg : rhs < 0 → rhs < r ∧ r ≤ 0) :
    q = lhs.fdiv rhs ∧ r = lhs.fmod rhs := by
  rcases lt_trichotomy rhs 0 with hb | hb | hb
  · obtain ⟨hr1, hr2⟩ := hneg hb
    obtain ⟨hf1, hf2⟩ := fmod_neg_bounds lhs hb
    have hidf : rhs * lhs.fdiv rhs + lhs.fmod rhs = lhs := Int.fdiv_add_fmod lhs rhs
    have hk : rhs * (q - lhs.fdiv rhs) = lhs.fmod rhs - r := by ring_nf; linarith
    have hq : q = lhs.fdiv rhs := by
      rcases lt_trichotomy (q - lhs.fdiv rhs) 0 with hd | hd | hd
    -- q - fdiv ≤ -1 gives rhs * (q - fdiv) ≥ -rhs, but fmod - r < -rhs
      · exfalso
        have h1 : q - lhs.fdiv rhs ≤ -1 := by omega
        nlinarith
      · omega
      · exfalso
        have h1 : 1 ≤ q - lhs.fdiv rhs := by omega
        nlinarith
    refine ⟨hq, ?_⟩
    rw [hq] at hk
    simp at hk
    omega
  · exact absurd hb hrhs
  · obtain ⟨hr1, hr2⟩ := hpos hb
    have h1 := (@Int.ediv_emod_unique lhs rhs r q hb).mpr ⟨by linarith, hr1, hr2⟩
    rw [Int.fdiv_eq_ediv lhs (le_of_lt hb), Int.fmod_eq_emod lhs (le_of_lt hb)]
    exact ⟨h1.1.symm, h1.2.symm⟩

theorem neg_tmod_lemma (a b : Int) : (-a).tmod b = -(a.tmod b) := by
  rw [Int.tmod_def, Int.tmod_def, Int.neg_tdiv]
  ring

/-- The truncated remainder is zero or has the dividend sign, and is
bounded by the divisor in magnitude. -/
theorem tmod_bounds (lhs rhs : Int) (h : rhs ≠ 0) :
    (0 ≤ lhs → 0 ≤ lhs.tmod rhs ∧ lhs.tmod rhs < |rhs|) ∧
    (lhs < 0 → -|rhs| < lhs.tmod rhs ∧ lhs.tmod rhs ≤ 0) := by
  have habs : lhs.tmod rhs = lhs.tmod |rhs| := by
    rcases abs_cases rhs with ⟨h1, _⟩ | ⟨h1, _⟩
    · rw [h1]
    · rw [h1, Int.tmod_neg]
  have habspos : 0 < |rhs| := abs_pos.mpr h
  constructor
  · intro hl
    rw [habs]
    exact ⟨Int.tmod_nonneg _ hl, Int.tmod_lt_of_pos lhs habspos⟩
  · intro hl
    rw [habs, show lhs = -(-lhs) by ring, neg_tmod_lemma]
    have h1 : 0 ≤ (-lhs).tmod |rhs| := Int.tmod_nonneg _ (by omega)
    have h2 : (-lhs).tmod |rhs| < |rhs| := Int.tmod_lt_of_pos _ habspos
    omega

/-- The adjusted witness pair is exactly floor division. -/
theorem floorAdjust_eq (lhs rhs : Int) (h : rhs ≠ 0) :
    floorAdjust lhs rhs = (lhs.fdiv rhs, lhs.fmod rhs) := by
  have hid : rhs * lhs.tdiv rhs + lhs.tmod rhs = lhs := by
    have := Int.tmod_add_tdiv lhs rhs
    linarith
  have hbnd := tmod_bounds lhs rhs h
  have habspos : 0 < |rhs| := abs_pos.mpr h
  unfold floorAdjust
  by_cases hc : lhs.tmod rhs ≠ 0 ∧ decide (lhs.tmod rhs < 0) ≠ decide (rhs < 0)
  · rw [if_pos hc]
    obtain ⟨hne, hsgn⟩ := hc
    have huniq := fdiv_fmod_unique lhs rhs (lhs.tdiv rhs - 1) (lhs.tmod rhs + rhs) h
      (by ring_nf; linarith) ?pos ?neg
    · rw [Prod.ext_iff]
      exact ⟨congrArg Prod.fst (Prod.ext huniq.1 huniq.2),
        congrArg Prod.snd (Prod.ext huniq.1 huniq.2)⟩
    case pos =>
      intro hb
      -- remainder is negative here (signs differ, divisor positive)
      have hrneg : lhs.tmod rhs < 0 := by
        by_contra hcon
        have h1 : decide (lhs.tmod rhs < 0) = false := decide_eq_false hcon
        have h2 : decide (rhs < 0) = false := decide_eq_false (by omega)
        rw [h1, h2] at hsgn
        exact hsgn rfl
      have := hbnd.2 (by
        rcases lt_trichotomy lhs 0 with h1 | h1 | h1
        · exact h1
        · exfalso; rw [h1] at hrneg; simp [Int.zero_tmod] at hrneg
        · exfalso
          have := (hbnd.1 (le_of_lt h1)).1
          omega)
      constructor
      · have habs : |rhs| = rhs := abs_of_pos hb
        omega
      · omega
    case neg =>
      intro hb
      have hrpos : 0 < lhs.tmod rhs := by
        have hdec2 : decide (rhs < 0) = true := decide_eq_true hb
        by_cases hcon : lhs.tmod rhs < 0
        · exfalso
          rw [decide_eq_true hcon, hdec2] at hsgn
          exact hsgn rfl
        · omega
      have := hbnd.1 (by
        rcases lt_trichotomy lhs 0 with h1 | h1 | h1
        · exfalso
          have := (hbnd.2 h1).2
          omega
        · exfalso; rw [h1] at hrpos; simp [Int.zero_tmod] at hrpos
        · exact le_of_lt h1)
      have habs : |rhs| = -rhs := abs_of_neg hb
      constructor
      · omega
      · omega
  · rw [if_neg hc]
    push_neg at hc
    have huniq := fdiv_fmod_unique lhs rhs (lhs.tdiv rhs) (lhs.tmod rhs) h hid ?pos ?neg
    · rw [Prod.ext_iff]
      exact ⟨huniq.1, huniq.2⟩
    case pos =>
      intro hb
      by_cases hz : lhs.tmod rhs = 0
      · rw [hz]; omega
      · have hsgn := hc hz
        have h2 : decide (rhs < 0) = false := decide_eq_false (by omega)
        rw [h2] at hsgn
        have h3 : ¬ (lhs.tmod rhs < 0) := by
          intro hcon
          rw [decide_eq_true hcon] at hsgn
          simp at hsgn
        have habs : |rhs| = rhs := abs_of_pos hb
        rcases lt_trichotomy lhs 0 with h1 | h1 | h1
        · have := hbnd.2 h1; omega
        · rw [h1]; simp [Int.zero_tmod]; omega
        · have := hbnd.1 (le_of_lt h1); omega
    case neg =>
      intro hb
      by_cases hz : lhs.tmod rhs = 0
      · rw [hz]; omega
      · have hsgn := hc hz
        have h2 : decide (rhs < 0) = true := decide_eq_true hb
        rw [h2] at hsgn
        have h3 : lhs.tmod rhs < 0 := by
          by_contra hcon
          rw [decide_eq_false hcon] at hsgn
          simp at hsgn
        have habs : |rhs| = -rhs := abs_of_neg hb
        rcases lt_trichotomy lhs 0 with h1 | h1 | h1
        · have := hbnd.2 h1; omega
        · rw [h1] at h3; simp [Int.zero_tmod] at h3
        · have := hbnd.1 (le_of_lt h1); omega

namespace Bigint2048

theorem equals_zero_false_of_ne (b : Bigint2048) (h : b.toBigInt ≠ 0) :
    b.equals ZERO = false := by
  cases hc : b.equals ZERO
  · rfl
  · exact absurd ((equals_zero_iff b).mp hc) h

theorem natAbs_toBigInt (a : Bigint2048) : a.toBigInt.natAbs = valN a.fields := by
  cases h : a.negative <;> simp [toBigInt, h]

theorem fromInt_negative (x : Int) (h : x.natAbs < 2 ^ 2088) :
    ∃ v, fromInt x = some v ∧ v.negative = decide (x < 0) ∧
      toBigInt v = x ∧ Wf v ∧ valN v.fields = x.natAbs := by
  refine ⟨_, (fromInt_spec x).1 h, rfl, ?_, ?_, ?_⟩
  · obtain ⟨v, hv1, hv2, _⟩ := fromInt_toBigInt x h
    rw [(fromInt_spec x).1 h] at hv1
    injection hv1 with hv1
    rw [hv1]
    exact hv2
  · exact ⟨limbList_length _ _, limbList_lt _ _⟩
  · show valN (limbList LIMB_NUM x.natAbs) = x.natAbs
    rw [valN_limbList, modulus_pow_limbs, Nat.mod_eq_of_lt h]

theorem negative_eq_decide (b : Bigint2048) (h : b.toBigInt ≠ 0) :
    b.negative = decide (b.toBigInt < 0) := by
  cases hn : b.negative
  · have h1 := toBigInt_of_false b hn
    have h2 : 0 ≤ b.toBigInt := by rw [h1]; positivity
    rw [decide_eq_false (by omega)]
  · have h1 : b.toBigInt = -(valN b.fields : Int) := by simp [toBigInt, hn]
    have h2 : valN b.fields ≠ 0 := by
      intro hz
      rw [h1, hz] at h
      simp at h
    have h3 : b.toBigInt < 0 := by
      rw [h1]
      have h4 : (0:Int) < (valN b.fields : Int) := by
        exact_mod_cast Nat.pos_of_ne_zero h2
      omega
    rw [decide_eq_true h3]

/-- Core success lemma for `floorDiv`: with a non-zero divisor and
quotient-remainder magnitudes small enough to keep the internal `mul`
exact and the internal `add` from overflowing, the witnessed floor
quotient and remainder pass every assertion and are returned. -/
theorem floorDiv_core (a b : Bigint2048) (ha : Wf a) (hb : Wf b)
    (hbne : b.toBigInt ≠ 0)
    (hq_small : (a.toBigInt.fdiv b.toBigInt).natAbs * b.toBigInt.natAbs < MAX_NAT)
    (hsum_small : (a.toBigInt.fdiv b.toBigInt).natAbs * b.toBigInt.natAbs
        + (a.toBigInt.fmod b.toBigInt).natAbs ≤ MAX_NAT) :
    ∃ qB rB, a.floorDiv b = some (qB, rB) ∧ Wf qB ∧ Wf rB ∧
      qB.toBigInt = a.toBigInt.fdiv b.toBigInt ∧
      rB.toBigInt = a.toBigInt.fmod b.toBigInt ∧
      qB.negative = decide (a.toBigInt.fdiv b.toBigInt < 0) ∧
      valN qB.fields = (a.toBigInt.fdiv b.toBigInt).natAbs ∧
      rB.negative = decide (a.toBigInt.fmod b.toBigInt < 0) ∧
      valN rB.fields = (a.toBigInt.fmod b.toBigInt).natAbs := by
  have hMAXlt : MAX_NAT < 2 ^ 2088 := by unfold MAX_NAT; omega
  have hbz : b.equals ZERO = false := equals_zero_false_of_ne b hbne
  have hadj := floorAdjust_eq a.toBigInt b.toBigInt hbne
  have hadj1 : (floorAdjust a.toBigInt b.toBigInt).1 = a.toBigInt.fdiv b.toBigInt := by
    rw [hadj]
  have hadj2 : (floorAdjust a.toBigInt b.toBigInt).2 = a.toBigInt.fmod b.toBigInt := by
    rw [hadj]
  have hfid : b.toBigInt * (a.toBigInt.fdiv b.toBigInt) + a.toBigInt.fmod b.toBigInt
      = a.toBigInt := Int.fdiv_add_fmod _ _
  have hRbounds : (a.toBigInt.fmod b.toBigInt).natAbs < b.toBigInt.natAbs ∧
      (a.toBigInt.fmod b.toBigInt = 0 ∨
        ((a.toBigInt.fmod b.toBigInt < 0) ↔ (b.toBigInt < 0))) := by
    rcases lt_trichotomy b.toBigInt 0 with hB | hB | hB
    · obtain ⟨h1, h2⟩ := fmod_neg_bounds a.toBigInt hB
      constructor
      · omega
      · by_cases hz : a.toBigInt.fmod b.toBigInt = 0
        · exact Or.inl hz
        · exact Or.inr (by omega)
    · exact absurd hB hbne
    · have h1 : 0 ≤ a.toBigInt.fmod b.toBigInt := Int.fmod_nonneg' _ hB
      have h2 : a.toBigInt.fmod b.toBigInt < b.toBigInt := Int.fmod_lt_of_pos _ hB
      constructor
      · omega
      · by_cases hz : a.toBigInt.fmod b.toBigInt = 0
        · exact Or.inl hz
        · exact Or.inr (by omega)
  have hBN1 : 1 ≤ b.toBigInt.natAbs := by
    have hne : b.toBigInt.natAbs ≠ 0 := fun hz => hbne (Int.natAbs_eq_zero.mp hz)
    omega
  have hBN : b.toBigInt.natAbs < 2 ^ 2088 := by
    rw [natAbs_toBigInt]
    exact valN_wf_lt b hb
  have hQN : (a.toBigInt.fdiv b.toBigInt).natAbs < 2 ^ 2088 := by
    have h1 : (a.toBigInt.fdiv b.toBigInt).natAbs
        ≤ (a.toBigInt.fdiv b.toBigInt).natAbs * b.toBigInt.natAbs :=
      Nat.le_mul_of_pos_right _ (by omega)
    omega
  have hRN : (a.toBigInt.fmod b.toBigInt).natAbs < 2 ^ 2088 := by omega
  obtain ⟨qB, hqB1, hqB2, hqB3, hqB4, hqB5⟩ :=
    fromInt_negative (a.toBigInt.fdiv b.toBigInt) hQN
  obtain ⟨rB, hrB1, hrB2, hrB3, hrB4, hrB5⟩ :=
    fromInt_negative (a.toBigInt.fmod b.toBigInt) hRN
  obtain ⟨m, hm1, hm2, hm3, hm4, hm5⟩ := mul_toBigInt b qB hb hqB4
  have hprod_eq : valN b.fields * valN qB.fields
      = (a.toBigInt.fdiv b.toBigInt).natAbs * b.toBigInt.natAbs := by
    rw [← natAbs_toBigInt b, hqB5]
    ring
  have hprod_small : valN b.fields * valN qB.fields < MAX_NAT := by
    rw [hprod_eq]; exact hq_small
  have hmval : m.toBigInt = b.toBigInt * (a.toBigInt.fdiv b.toBigInt) := by
    rw [hm5 hprod_small, hqB3]
  have hmmag : valN m.fields
      = (a.toBigInt.fdiv b.toBigInt).natAbs * b.toBigInt.natAbs := by
    rw [hm4, Nat.mod_eq_of_lt hprod_small, hprod_eq]
  obtain ⟨s, hs1, hs2, hs3, _⟩ := add_spec m rB hm2 hrB4 (by rw [hmmag, hrB5]; omega)
  have hsval : s.toBigInt = a.toBigInt := by
    rw [hs3, hmval, hrB3, hfid]
  have hseq : s.equals a = true := (equals_iff s a hs2 ha).mpr hsval
  have hcmp : cmp rB.abs b.abs = Ordering.lt := by
    rw [cmp_spec _ _ (abs_wf rB hrB4) (abs_wf b hb), toBigInt_abs, toBigInt_abs,
      compare_natCast, hrB5, ← natAbs_toBigInt b]
    exact compare_lt_iff_lt.mpr hRbounds.1
  have hguard : (equals rB ZERO || (rB.negative == b.negative)) = true := by
    rcases hRbounds.2 with hz | hiff
    · have h1 : rB.equals ZERO = true := (equals_zero_iff rB).mpr (by rw [hrB3, hz])
      rw [h1, Bool.true_or]
    · have h1 : rB.negative = b.negative := by
        rw [hrB2, negative_eq_decide b hbne]
        by_cases hc : b.toBigInt < 0
        · rw [decide_eq_true hc, decide_eq_true (hiff.mpr hc)]
        · rw [decide_eq_false hc, decide_eq_false (fun hcc => hc (hiff.mp hcc))]
      rw [h1, beq_self_eq_true, Bool.or_true]
  refine ⟨qB, rB, ?_, hqB4, hrB4, hqB3, hrB3, hqB2, hqB5, hrB2, hrB5⟩
  unfold floorDiv
  rw [hbz]
  simp only [Bool.false_eq_true, if_false, hadj1, hadj2, hqB1, hrB1,
    Option.some_bind, hm1, hs1, hseq, hcmp, hguard, if_true]

/-- Success and the full floor-division contract of `floorDiv` for
well-formed operands with a non-zero divisor, under the bound
`|a| + 2|b| ≤ 2^2088`. -/
theorem floorDiv_spec (a b : Bigint2048) (ha : Wf a) (hb : Wf b)
    (hbne : b.toBigInt ≠ 0)
    (hbound : a.toBigInt.natAbs + 2 * b.toBigInt.natAbs ≤ 2 ^ 2088) :
    ∃ qB rB, a.floorDiv b = some (qB, rB) ∧ Wf qB ∧ Wf rB ∧
      qB.toBigInt = a.toBigInt.fdiv b.toBigInt ∧
      rB.toBigInt = a.toBigInt.fmod b.toBigInt := by
  have hMAXeq : MAX_NAT = 2 ^ 2088 - 1 := rfl
  have hfid : b.toBigInt * (a.toBigInt.fdiv b.toBigInt) + a.toBigInt.fmod b.toBigInt
      = a.toBigInt := Int.fdiv_add_fmod _ _
  have hBN1 : 1 ≤ b.toBigInt.natAbs := by
    have hne : b.toBigInt.natAbs ≠ 0 := fun hz => hbne (Int.natAbs_eq_zero.mp hz)
    omega
  have hRlt : (a.toBigInt.fmod b.toBigInt).natAbs < b.toBigInt.natAbs := by
    rcases lt_trichotomy b.toBigInt 0 with hB | hB | hB
    · obtain ⟨h1, h2⟩ := fmod_neg_bounds a.toBigInt hB
      omega
    · exact absurd hB hbne
    · have h1 : 0 ≤ a.toBigInt.fmod b.toBigInt := Int.fmod_nonneg' _ hB
      have h2 : a.toBigInt.fmod b.toBigInt < b.toBigInt := Int.fmod_lt_of_pos _ hB
      omega
  have hQB : ((a.toBigInt.fdiv b.toBigInt) * b.toBigInt).natAbs
      ≤ a.toBigInt.natAbs + b.toBigInt.natAbs - 1 := by
    have h1 : (a.toBigInt.fdiv b.toBigInt) * b.toBigInt
        = a.toBigInt - a.toBigInt.fmod b.toBigInt := by
      have := mul_comm (a.toBigInt.fdiv b.toBigInt) b.toBigInt
      linarith
    rw [h1]
    have h2 := Int.natAbs_sub_le a.toBigInt (a.toBigInt.fmod b.toBigInt)
    omega
  have hQBmul : (a.toBigInt.fdiv b.toBigInt).natAbs * b.toBigInt.natAbs
      = ((a.toBigInt.fdiv b.toBigInt) * b.toBigInt).natAbs :=
    (Int.natAbs_mul _ _).symm
  obtain ⟨qB, rB, h1, h2, h3, h4, h5, _⟩ :=
    floorDiv_core a b ha hb hbne (by omega) (by omega)
  exact ⟨qB, rB, h1, h2, h3, h4, h5⟩

theorem eq_ofNat_of (v : Bigint2048) (n : Nat) (hn : n < 2 ^ 2088)
    (h1 : v.negative = false) (h2 : Wf v) (h3 : valN v.fields = n) :
    v = ofNat n := by
  have hfields : v.fields = limbList LIMB_NUM n := by
    apply valN_inj _ _ (h2.1.trans (limbList_length _ _).symm) h2.2 (limbList_lt _ _)
    rw [h3, valN_limbList, modulus_pow_limbs, Nat.mod_eq_of_lt hn]
  cases v with
  | mk neg fields =>
    simp only at h1 hfields
    rw [h1, hfields]
    rfl

/-- Canonical floor division of canonical non-negative inputs: succeeds
whenever the dividend is at most `2^2088 - 2` and returns the canonical
quotient and remainder. -/
theorem floorDiv_ofNat (a b : Nat) (ha : a ≤ MAX_NAT - 1)
    (hb1 : 1 ≤ b) (hb2 : b ≤ MAX_NAT) :
    (ofNat a).floorDiv (ofNat b) = some (ofNat (a / b), ofNat (a % b)) := by
  have hMAXeq : MAX_NAT = 2 ^ 2088 - 1 := rfl
  have hMAX1 : 1 ≤ MAX_NAT := MAX_NAT_pos
  have ha2 : a < 2 ^ 2088 := by omega
  have hb3 : b < 2 ^ 2088 := by omega
  have htA : (ofNat a).toBigInt = (a : Int) := toBigInt_ofNat a ha2
  have htB : (ofNat b).toBigInt = (b : Int) := toBigInt_ofNat b hb3
  have hfd : ((a:Int)).fdiv (b:Int) = ((a / b : Nat) : Int) := (Int.ofNat_fdiv a b).symm
  have hfm : ((a:Int)).fmod (b:Int) = ((a % b : Nat) : Int) := (Int.ofNat_fmod a b).symm
  have hbne : (ofNat b).toBigInt ≠ 0 := by
    rw [htB]
    exact_mod_cast (by omega : b ≠ 0)
  have hdivmul : a / b * b ≤ a := Nat.div_mul_le_self a b
  have hdm := Nat.div_add_mod a b
  have hmod : a % b < b := Nat.mod_lt a hb1
  obtain ⟨qB, rB, h1, h2, h3, h4, h5, h6, h7, h8, h9⟩ :=
    floorDiv_core (ofNat a) (ofNat b) (ofNat_wf a) (ofNat_wf b) hbne
      (by rw [htA, htB, hfd]
          simp only [Int.natAbs_ofNat]
          omega)
      (by rw [htA, htB, hfd, hfm]
          simp only [Int.natAbs_ofNat]
          have hcomm : a / b * b = b * (a / b) := Nat.mul_comm _ _
          omega)
  rw [htA, htB] at h4 h5 h6 h7 h8 h9
  rw [hfd] at h4 h6 h7
  rw [hfm] at h5 h8 h9
  have hq_eq : qB = ofNat (a / b) := by
    have hdle := Nat.div_le_self a b
    apply eq_ofNat_of qB (a / b) (by omega) ?q1 h2 ?q3
    case q1 => rw [h6, decide_eq_false (not_lt.mpr (Int.natCast_nonneg (a / b)))]
    case q3 => rw [h7, Int.natAbs_ofNat]
  have hr_eq : rB = ofNat (a % b) := by
    apply eq_ofNat_of rB (a % b) (by omega) ?r1 h3 ?r3
    case r1 => rw [h8, decide_eq_false (not_lt.mpr (Int.natCast_nonneg (a % b)))]
    case r3 => rw [h9, Int.natAbs_ofNat]
  rw [h1, hq_eq, hr_eq]

theorem equals_ofNat (x y : Nat) (hx : x < 2 ^ 2088) (hy : y < 2 ^ 2088) :
    (ofNat x).equals (ofNat y) = decide (x = y) := by
  by_cases h : x = y
  · rw [decide_eq_true h, (equals_iff _ _ (ofNat_wf x) (ofNat_wf y)).mpr]
    rw [toBigInt_ofNat x hx, toBigInt_ofNat y hy, h]
  · rw [decide_eq_false h]
    cases hc : (ofNat x).equals (ofNat y)
    · rfl
    · exfalso
      have := (equals_iff _ _ (ofNat_wf x) (ofNat_wf y)).mp hc
      rw [toBigInt_ofNat x hx, toBigInt_ofNat y hy] at this
      exact h (by exact_mod_cast this)

theorem equals_ofNat_zero (b : Nat) (hb : b < 2 ^ 2088) :
    (ofNat b).equals ZERO = decide (b = 0) := by
  have h2 : (0:Nat) < 2 ^ 2088 := by positivity
  exact equals_ofNat b 0 hb h2

end Bigint2048

theorem eStep_bounds (p : Nat × Nat)
    (h1 : p.1 ≤ MAX_NAT - 1) (h2 : p.2 ≤ MAX_NAT - 1) :
    (eStep p).1 ≤ MAX_NAT - 1 ∧ (eStep p).2 ≤ MAX_NAT - 1 := by
  cases p with
  | mk a b =>
    simp only [eStep]
    by_cases h : b = 0
    · rw [if_pos h]
      exact ⟨h1, h2⟩
    · rw [if_neg h]
      have := Nat.mod_lt a (Nat.pos_of_ne_zero h)
      exact ⟨h2, by omega⟩

theorem eStep_gcd (p : Nat × Nat) :
    Nat.gcd (eStep p).1 (eStep p).2 = Nat.gcd p.1 p.2 := by
  cases p with
  | mk a b =>
    simp only [eStep]
    by_cases h : b = 0
    · rw [if_pos h]
    · rw [if_neg h]
      show Nat.gcd b (a % b) = Nat.gcd a b
      rw [Nat.gcd_comm b (a % b), ← Nat.gcd_rec b a, Nat.gcd_comm b a]

theorem eIter_bounds (n : Nat) : ∀ p : Nat × Nat,
    p.1 ≤ MAX_NAT - 1 → p.2 ≤ MAX_NAT - 1 →
    (eIter n p).1 ≤ MAX_NAT - 1 ∧ (eIter n p).2 ≤ MAX_NAT - 1 := by
  induction n with
  | zero => exact fun p h1 h2 => ⟨h1, h2⟩
  | succ n ih =>
    intro p h1 h2
    have hs := eStep_bounds p h1 h2
    exact ih (eStep p) hs.1 hs.2

theorem eIter_gcd (n : Nat) : ∀ p : Nat × Nat,
    Nat.gcd (eIter n p).1 (eIter n p).2 = Nat.gcd p.1 p.2 := by
  induction n with
  | zero => exact fun p => rfl
  | succ n ih =>
    intro p
    show Nat.gcd (eIter n (eStep p)).1 (eIter n (eStep p)).2 = _
    rw [ih (eStep p), eStep_gcd p]

theorem eIter_add (m : Nat) : ∀ (n : Nat) (p : Nat × Nat),
    eIter (m + n) p = eIter n (eIter m p) := by
  induction m with
  | zero => intro n p; rw [Nat.zero_add]; rfl
  | succ m ih =>
    intro n p
    have h : m + 1 + n = (m + n) + 1 := by omega
    rw [h]
    show eIter (m + n) (eStep p) = eIter n (eIter m (eStep p))
    exact ih n (eStep p)

theorem eIter_succ_last (n : Nat) (p : Nat × Nat) :
    eIter (n + 1) p = eStep (eIter n p) := by
  rw [eIter_add n 1 p]
  rfl

theorem eStep_fix (p : Nat × Nat) (h : p.2 = 0) : eStep p = p := by
  cases p with
  | mk a b =>
    simp only [eStep]
    simp only at h
    rw [if_pos h]

theorem eIter_fix (n : Nat) (p : Nat × Nat) (h : p.2 = 0) : eIter n p = p := by
  induction n with
  | zero => rfl
  | succ n ih =>
    show eIter n (eStep p) = p
    rw [eStep_fix p h]
    exact ih

theorem eStep_eq_imp_zero (p : Nat × Nat)
    (h : (eStep p).1 = (eStep p).2) : (eStep p).2 = 0 := by
  cases p with
  | mk a b =>
    simp only [eStep] at h ⊢
    by_cases hb : b = 0
    · rw [if_pos hb]
      exact hb
    · rw [if_neg hb] at h ⊢
      have := Nat.mod_lt a (Nat.pos_of_ne_zero hb)
      simp only at h
      omega

theorem eIter_terminates (b : Nat) : ∀ a : Nat, ∃ k, (eIter k (a, b)).2 = 0 := by
  induction b using Nat.strong_induction_on with
  | _ b ih =>
    intro a
    by_cases h : b = 0
    · exact ⟨0, h⟩
    · obtain ⟨k, hk⟩ := ih (a % b) (Nat.mod_lt a (Nat.pos_of_ne_zero h)) b
      refine ⟨k + 1, ?_⟩
      show (eIter k (eStep (a, b))).2 = 0
      have hstep : eStep (a, b) = (b, a % b) := by
        simp only [eStep]
        rw [if_neg h]
      rw [hstep]
      exact hk

theorem ONE_toBigInt : Bigint2048.ONE.toBigInt = 1 := by decide

theorem gcdDivisor_ne_zero (p : GcdPair) :
    (cond (p.g_1.equals Bigint2048.ZERO) Bigint2048.ONE p.g_1).toBigInt ≠ 0 := by
  cases hc : p.g_1.equals Bigint2048.ZERO
  · simp only [Bool.cond_false]
    intro h
    have := (Bigint2048.equals_zero_iff p.g_1).mpr h
    rw [hc] at this
    exact Bool.false_ne_true this
  · simp only [Bool.cond_true]
    rw [ONE_toBigInt]
    exact one_ne_zero

theorem gcdStep_ofNat (a b : Nat) (ha : a ≤ MAX_NAT - 1) (hb : b ≤ MAX_NAT - 1) :
    GcdPair.gcdStep (GcdPair.mk (Bigint2048.ofNat a) (Bigint2048.ofNat b))
      = some (GcdPair.mk (Bigint2048.ofNat (eStep (a, b)).1)
          (Bigint2048.ofNat (eStep (a, b)).2)) := by
  have hM : MAX_NAT = 2 ^ 2088 - 1 := rfl
  have hMp := Bigint2048.MAX_NAT_pos
  have hb2 : b < 2 ^ 2088 := by omega
  have heqz := Bigint2048.equals_ofNat_zero b hb2
  by_cases hb0 : b = 0
  · subst hb0
    have hz : (Bigint2048.ofNat 0).equals Bigint2048.ZERO = true := by
      rw [heqz]
      rfl
    simp only [GcdPair.gcdStep, hz, Bool.cond_true]
    rw [show Bigint2048.ONE = Bigint2048.ofNat 1 from rfl,
      Bigint2048.floorDiv_ofNat a 1 ha (le_refl 1) hMp]
    rfl
  · have hz : (Bigint2048.ofNat b).equals Bigint2048.ZERO = false := by
      rw [heqz, decide_eq_false hb0]
    simp only [GcdPair.gcdStep, hz, Bool.cond_false]
    rw [Bigint2048.floorDiv_ofNat a b ha (Nat.one_le_iff_ne_zero.mpr hb0) (by omega)]
    have he : eStep (a, b) = (b, a % b) := by
      simp only [eStep]
      rw [if_neg hb0]
    rw [he]
    rfl

theorem gcdIterAux_ofNat (n : Nat) : ∀ a b : Nat,
    a ≤ MAX_NAT - 1 → b ≤ MAX_NAT - 1 →
    GcdPair.gcdIterAux n (GcdPair.mk (Bigint2048.ofNat a) (Bigint2048.ofNat b))
      = some (GcdPair.mk (Bigint2048.ofNat (eIter n (a, b)).1)
          (Bigint2048.ofNat (eIter n (a, b)).2)) := by
  induction n with
  | zero => intro a b _ _; rfl
  | succ n ih =>
    intro a b ha hb
    show (GcdPair.gcdStep _).bind _ = _
    rw [gcdStep_ofNat a b ha hb]
    have hbd := eStep_bounds (a, b) ha hb
    have hih := ih (eStep (a, b)).1 (eStep (a, b)).2 hbd.1 hbd.2
    show GcdPair.gcdIterAux n
        (GcdPair.mk (Bigint2048.ofNat (eStep (a, b)).1)
          (Bigint2048.ofNat (eStep (a, b)).2)) = _
    rw [hih]
    rfl

theorem euclidGcd_ofNat (a b : Nat) (ha : a ≤ MAX_NAT - 1) (hb : b ≤ MAX_NAT - 1) :
    GcdPair.euclidGcd (GcdPair.mk (Bigint2048.ofNat a) (Bigint2048.ofNat b))
      = some (GcdPair.mk (Bigint2048.ofNat (eIter 9 (a, b)).1)
          (Bigint2048.ofNat (eIter 9 (a, b)).2)) :=
  gcdIterAux_ofNat 9 a b ha hb

theorem applyEuclidN_ofNat (n : Nat) : ∀ a b : Nat,
    a ≤ MAX_NAT - 1 → b ≤ MAX_NAT - 1 →
    applyEuclidN n (GcdPair.mk (Bigint2048.ofNat a) (Bigint2048.ofNat b))
      = some (GcdPair.mk (Bigint2048.ofNat (eIter (9 * n) (a, b)).1)
          (Bigint2048.ofNat (eIter (9 * n) (a, b)).2)) := by
  induction n with
  | zero => intro a b _ _; rfl
  | succ n ih =>
    intro a b ha hb
    show (GcdPair.euclidGcd _).bind _ = _
    rw [euclidGcd_ofNat a b ha hb]
    have hbd := eIter_bounds 9 (a, b) ha hb
    have hih := ih (eIter 9 (a, b)).1 (eIter 9 (a, b)).2 hbd.1 hbd.2
    show applyEuclidN n
        (GcdPair.mk (Bigint2048.ofNat (eIter 9 (a, b)).1)
          (Bigint2048.ofNat (eIter 9 (a, b)).2)) = _
    rw [hih]
    have h9 : 9 * (n + 1) = 9 + 9 * n := by ring
    have hsplit : eIter (9 * (n + 1)) (a, b) = eIter (9 * n) (eIter 9 (a, b)) := by
      rw [h9, eIter_add 9 (9 * n) (a, b)]
    rw [hsplit]

theorem gcdStep_signed (p : GcdPair) (h0 : Wf p.g_0) (h1 : Wf p.g_1)
    (hb0 : p.g_0.toBigInt.natAbs ≤ MAX_NAT - 1)
    (hb1 : p.g_0.toBigInt.natAbs + 2 * p.g_1.toBigInt.natAbs ≤ 2 ^ 2088) :
    ∃ q, GcdPair.gcdStep p = some q ∧
      (p.g_1.toBigInt = 0 → q = p) ∧
      (p.g_1.toBigInt ≠ 0 → q.g_0 = p.g_1 ∧ Wf q.g_1 ∧
        q.g_1.toBigInt = p.g_0.toBigInt.fmod p.g_1.toBigInt) := by
  have hM : MAX_NAT = 2 ^ 2088 - 1 := rfl
  cases hz : p.g_1.equals Bigint2048.ZERO
  · have hne : p.g_1.toBigInt ≠ 0 := fun h =>
      Bool.false_ne_true (hz ▸ (Bigint2048.equals_zero_iff p.g_1).mpr h)
    obtain ⟨qB, rB, hfd, hwq, hwr, hq, hr⟩ :=
      Bigint2048.floorDiv_spec p.g_0 p.g_1 h0 h1 hne hb1
    refine ⟨GcdPair.mk p.g_1 rB, ?_, fun h => absurd h hne, fun _ => ⟨rfl, hwr, hr⟩⟩
    simp only [GcdPair.gcdStep, hz, Bool.cond_false, hfd]
    rfl
  · have hzv : p.g_1.toBigInt = 0 := (Bigint2048.equals_zero_iff p.g_1).mp hz
    have honeAbs : Bigint2048.ONE.toBigInt.natAbs = 1 := by decide
    have honeNe : Bigint2048.ONE.toBigInt ≠ 0 := by
      rw [ONE_toBigInt]
      exact one_ne_zero
    obtain ⟨qB, rB, hfd, _, _, _, _⟩ :=
      Bigint2048.floorDiv_spec p.g_0 Bigint2048.ONE h0 (Bigint2048.ofNat_wf 1)
        honeNe (by rw [honeAbs]; omega)
    refine ⟨GcdPair.mk p.g_0 p.g_1, ?_, fun _ => rfl, fun h => absurd hzv h⟩
    simp only [GcdPair.gcdStep, hz, Bool.cond_true, hfd]
    rfl

theorem rc116Sat_iff (x : Nat) (hx : x < nativeP) : rc116Sat x ↔ x < 2 ^ 116 := by
  have h64 : (2:Nat) ^ 64 = 18446744073709551616 := by norm_num
  have h52 : (2:Nat) ^ 52 = 4503599627370496 := by norm_num
  have h116 : (2:Nat) ^ 116 = 83076749736557242056487941267521536 := by norm_num
  have hPlt : (2:Nat) ^ 116 + 2 ^ 64 < nativeP := by decide
  constructor
  · rintro ⟨x0, x1, _, _, hc⟩
    simp only [rangeCheck116, Bool.and_eq_true, decide_eq_true_eq] at hc
    obtain ⟨d0, d1, d2, d3⟩ := hc
    have hx1 : x1 < 2 ^ 52 := by omega
    have hmul : x1 * 2 ^ 64 < 2 ^ 116 := by
      rw [h64, h116]
      rw [h52] at hx1
      nlinarith
    have hmod : x1 * 2 ^ 64 % nativeP = x1 * 2 ^ 64 :=
      Nat.mod_eq_of_lt (by omega)
    rw [hmod] at d3
    unfold fadd at d3
    have hsum : x0 + x1 * 2 ^ 64 < nativeP := by omega
    rw [Nat.mod_eq_of_lt hsum] at d3
    omega
  · intro hlt
    refine ⟨x % 2 ^ 64, x / 2 ^ 64, ?_, ?_, ?_⟩
    · have := Nat.mod_lt x (show 0 < 2 ^ 64 by positivity)
      omega
    · have := Nat.div_le_self x (2 ^ 64)
      omega
    · have hm : x % 2 ^ 64 < 2 ^ 64 := Nat.mod_lt x (by positivity)
      have hd : x / 2 ^ 64 < 2 ^ 52 := by omega
      have hdm := Nat.mod_add_div x (2 ^ 64)
      simp only [rangeCheck116, Bool.and_eq_true, decide_eq_true_eq]
      refine ⟨hm, by omega, by omega, ?_⟩
      have hmul : x / 2 ^ 64 * 2 ^ 64 < 2 ^ 116 := by
        have hb : x / 2 ^ 64 ≤ 2 ^ 52 - 1 := by omega
        have hmm : x / 2 ^ 64 * 2 ^ 64 ≤ (2 ^ 52 - 1) * 2 ^ 64 :=
          Nat.mul_le_mul_right _ hb
        have h2 : ((2:Nat) ^ 52 - 1) * 2 ^ 64 < 2 ^ 116 := by norm_num
        omega
      have hmod : x / 2 ^ 64 * 2 ^ 64 % nativeP = x / 2 ^ 64 * 2 ^ 64 :=
        Nat.mod_eq_of_lt (by omega)
      rw [hmod]
      unfold fadd
      rw [Nat.mod_eq_of_lt (by omega)]
      omega

theorem isSolved_ofNat (x y : Nat) (hx : x < 2 ^ 2088) (hy : y < 2 ^ 2088) :
    (GcdPair.mk (Bigint2048.ofNat x) (Bigint2048.ofNat y)).isSolved
      = (decide (x = y) || decide (y = 0)) := by
  simp only [GcdPair.isSolved]
  rw [Bigint2048.equals_ofNat x y hx hy, Bigint2048.equals_ofNat_zero y hy]

/-- C1: driving the proof pipeline (one `euclidGcd` for the base case, then
one per step) from the canonical pair `(a, b)` until `isSolved` terminates,
and the final `g_0` is the Euclidean gcd of `a` and `b` — provided both
inputs are at most `2^2088 - 2`.  (As stated for the whole range
`< 2^2088` the claim fails: see the counterexample, where the very first
`euclidGcd` call rejects.) -/
theorem C1_gcd_pipeline (a b : Nat)
    (ha : a ≤ 2 ^ 2088 - 2) (hb : b ≤ 2 ^ 2088 - 2) :
    (∃ n q, 1 ≤ n ∧
      applyEuclidN n (GcdPair.mk (Bigint2048.ofNat a) (Bigint2048.ofNat b))
        = some q ∧ q.isSolved = true) ∧
    (∀ n q, 1 ≤ n →
      applyEuclidN n (GcdPair.mk (Bigint2048.ofNat a) (Bigint2048.ofNat b))
        = some q →
      q.isSolved = true → q.g_0 = Bigint2048.ofNat (Nat.gcd a b)) := by
  have hM : MAX_NAT = 2 ^ 2088 - 1 := rfl
  have hMp := Bigint2048.MAX_NAT_pos
  have ha' : a ≤ MAX_NAT - 1 := by omega
  have hb' : b ≤ MAX_NAT - 1 := by omega
  constructor
  · obtain ⟨k, hk⟩ := eIter_terminates b a
    refine ⟨k + 1, _, by omega, applyEuclidN_ofNat (k + 1) a b ha' hb', ?_⟩
    have hbd := eIter_bounds (9 * (k + 1)) (a, b) ha' hb'
    rw [isSolved_ofNat _ _ (by omega) (by omega)]
    have hsplit : eIter (9 * (k + 1)) (a, b) = eIter k (a, b) := by
      have h1 : 9 * (k + 1) = k + (9 * (k + 1) - k) := by omega
      rw [h1, eIter_add k (9 * (k + 1) - k) (a, b)]
      exact eIter_fix _ _ hk
    rw [hsplit, hk]
    simp
  · intro n q hn hap hsol
    have hsim := applyEuclidN_ofNat n a b ha' hb'
    rw [hap] at hsim
    injection hsim with hq
    subst hq
    have hbd := eIter_bounds (9 * n) (a, b) ha' hb'
    rw [isSolved_ofNat _ _ (by omega) (by omega)] at hsol
    simp only [Bool.or_eq_true, decide_eq_true_eq] at hsol
    have hy0 : (eIter (9 * n) (a, b)).2 = 0 := by
      rcases hsol with he | h0
      · obtain ⟨m, hm⟩ : ∃ m, 9 * n = m + 1 := ⟨9 * n - 1, by omega⟩
        rw [hm, eIter_succ_last] at he ⊢
        exact eStep_eq_imp_zero _ he
      · exact h0
    have hg := eIter_gcd (9 * n) (a, b)
    have hx : (eIter (9 * n) (a, b)).1 = Nat.gcd a b := by
      rw [← hg, hy0, Nat.gcd_zero_right]
    show Bigint2048.ofNat (eIter (9 * n) (a, b)).1 = Bigint2048.ofNat (Nat.gcd a b)
    rw [hx]

theorem C1_gcd_pipeline_witness :
    48 ≤ 2 ^ 2088 - 2 ∧ 18 ≤ 2 ^ 2088 - 2 ∧
    ((∃ n q, 1 ≤ n ∧
      applyEuclidN n (GcdPair.mk (Bigint2048.ofNat 48) (Bigint2048.ofNat 18))
        = some q ∧ q.isSolved = true) ∧
    (∀ n q, 1 ≤ n →
      applyEuclidN n (GcdPair.mk (Bigint2048.ofNat 48) (Bigint2048.ofNat 18))
        = some q →
      q.isSolved = true → q.g_0 = Bigint2048.ofNat (Nat.gcd 48 18))) :=
  ⟨by decide, by decide, C1_gcd_pipeline 48 18 (by decide) (by decide)⟩

theorem C1_gcd_pipeline_counterexample :
    Bigint2048.MAX.toBigInt = (MAX_NAT : Int) ∧
    Bigint2048.ONE.toBigInt = (1 : Int) ∧
    applyEuclidN 1 (GcdPair.mk Bigint2048.MAX Bigint2048.ONE) = none := by
  refine ⟨by decide, by decide, by decide⟩

/-- C2: `euclidGcd` is exactly 9 iterations of the loop body; the divisor
handed to the division gadget is never zero-valued (the dummy divisor `1`
is selected branchlessly whenever `g_1` is zero); and — under the amended
bounds `|g_0| ≤ 2^2088 - 2` and `|g_0| + 2*|g_1| ≤ 2^2088` — one step
keeps `(g_0, g_1)` unchanged when `g_1` is zero (either representation)
and otherwise advances to `(g_1, g_0 fmod g_1)`, the floor-division
remainder.  (Without the bounds the step rejects: see the
counterexample.) -/
theorem C2_euclid_step_semantics :
    (∀ p : GcdPair, GcdPair.euclidGcd p = GcdPair.gcdIterAux 9 p) ∧
    (∀ p : GcdPair,
      (cond (p.g_1.equals Bigint2048.ZERO) Bigint2048.ONE p.g_1).toBigInt ≠ 0) ∧
    (∀ p : GcdPair, Wf p.g_0 → Wf p.g_1 →
      p.g_0.toBigInt.natAbs ≤ 2 ^ 2088 - 2 →
      p.g_0.toBigInt.natAbs + 2 * p.g_1.toBigInt.natAbs ≤ 2 ^ 2088 →
      ∃ q, GcdPair.gcdStep p = some q ∧
        (p.g_1.toBigInt = 0 → q = p) ∧
        (p.g_1.toBigInt ≠ 0 → q.g_0 = p.g_1 ∧
          q.g_1.toBigInt = p.g_0.toBigInt.fmod p.g_1.toBigInt)) := by
  refine ⟨fun p => rfl, gcdDivisor_ne_zero, fun p h0 h1 hb0 hb1 => ?_⟩
  have hM : MAX_NAT = 2 ^ 2088 - 1 := rfl
  obtain ⟨q, hq, hz, hnz⟩ := gcdStep_signed p h0 h1 (by omega) hb1
  exact ⟨q, hq, hz, fun h => ⟨(hnz h).1, (hnz h).2.2⟩⟩

theorem C2_euclid_step_semantics_witness :
    Wf (Bigint2048.ofNat 20) ∧ Wf (Bigint2048.ofNat 6).neg ∧
    (Bigint2048.ofNat 20).toBigInt.natAbs ≤ 2 ^ 2088 - 2 ∧
    (Bigint2048.ofNat 20).toBigInt.natAbs
      + 2 * (Bigint2048.ofNat 6).neg.toBigInt.natAbs ≤ 2 ^ 2088 ∧
    (∃ q, GcdPair.gcdStep (GcdPair.mk (Bigint2048.ofNat 20) (Bigint2048.ofNat 6).neg)
        = some q ∧
      ((Bigint2048.ofNat 6).neg.toBigInt = 0 →
        q = GcdPair.mk (Bigint2048.ofNat 20) (Bigint2048.ofNat 6).neg) ∧
      ((Bigint2048.ofNat 6).neg.toBigInt ≠ 0 →
        q.g_0 = (Bigint2048.ofNat 6).neg ∧
        q.g_1.toBigInt = (Bigint2048.ofNat 20).toBigInt.fmod
          (Bigint2048.ofNat 6).neg.toBigInt)) :=
  ⟨by decide, by decide, by decide, by decide,
    C2_euclid_step_semantics.2.2
      (GcdPair.mk (Bigint2048.ofNat 20) (Bigint2048.ofNat 6).neg)
      (by decide) (by decide) (by decide) (by decide)⟩

theorem C2_euclid_step_semantics_counterexample :
    Wf Bigint2048.MAX ∧ Wf Bigint2048.ZERO ∧
    Bigint2048.ZERO.toBigInt = 0 ∧
    GcdPair.gcdStep (GcdPair.mk Bigint2048.MAX Bigint2048.ZERO) = none ∧
    Wf (Bigint2048.ofNat (MAX_NAT - 2)).neg ∧ Wf (Bigint2048.ofNat 3) ∧
    (Bigint2048.ofNat 3).toBigInt ≠ 0 ∧
    GcdPair.gcdStep
      (GcdPair.mk (Bigint2048.ofNat (MAX_NAT - 2)).neg (Bigint2048.ofNat 3))
      = none := by
  exact ⟨by decide, by decide, by decide, by decide, by decide, by decide,
    by decide, by decide⟩

/-- C3: for magnitudes `x, y` and nonzero modulus `p` with well-formed
limbs, `p.modMul(x, y)` returns `r` with in-range limbs and an integer `q`
with `x*y = q*p + r` — provided additionally that the witnessed quotient
`x*y / p` fits in `2^2088 - 1` (otherwise the `Bigint2048.from` call for
`q` throws: see the counterexample); and the constraint system indeed
never asserts `r < p`: the gadget accepts the limb witness
`X = Y = P = R = 1`, `Q = 0`, whose remainder equals the modulus. -/
theorem C3_modMul (p x y : Bigint2048) (hx : Wf x) (hy : Wf y) (hp : Wf p)
    (hnx : x.negative = false) (hny : y.negative = false)
    (hnp : p.negative = false) (hppos : 0 < valN p.fields)
    (hqfit : valN x.fields * valN y.fields / valN p.fields ≤ 2 ^ 2088 - 1) :
    (∃ r, p.modMul x y = some r ∧ Wf r ∧
      ∃ q : Nat, valN x.fields * valN y.fields
          = q * valN p.fields + valN r.fields ∧
        valN r.fields < valN p.fields) ∧
    gadgetCheck Bigint2048.ONE.fields Bigint2048.ONE.fields
      Bigint2048.ZERO.fields Bigint2048.ONE.fields Bigint2048.ONE.fields
      = true := by
  have hM : MAX_NAT = 2 ^ 2088 - 1 := rfl
  constructor
  · have hspec := Bigint2048.multiply_spec x y p hx hy hp hnx hny hnp hppos
      (by omega)
    have hplt := Bigint2048.valN_wf_lt p hp
    have hrlt : valN x.fields * valN y.fields % valN p.fields < valN p.fields :=
      Nat.mod_lt _ hppos
    refine ⟨_, hspec, Bigint2048.ofNat_wf _,
      valN x.fields * valN y.fields / valN p.fields, ?_, ?_⟩
    · rw [Bigint2048.ofNat_val _ (by omega)]
      have hdm := Nat.div_add_mod (valN x.fields * valN y.fields) (valN p.fields)
      have hcomm : valN p.fields * (valN x.fields * valN y.fields / valN p.fields)
          = valN x.fields * valN y.fields / valN p.fields * valN p.fields :=
        Nat.mul_comm _ _
      omega
    · rw [Bigint2048.ofNat_val _ (by omega)]
      exact hrlt
  · decide

theorem C3_modMul_witness :
    Wf (Bigint2048.ofNat 7) ∧ Wf (Bigint2048.ofNat 4) ∧ Wf (Bigint2048.ofNat 5) ∧
    (Bigint2048.ofNat 7).negative = false ∧
    (Bigint2048.ofNat 4).negative = false ∧
    (Bigint2048.ofNat 5).negative = false ∧
    0 < valN (Bigint2048.ofNat 5).fields ∧
    valN (Bigint2048.ofNat 7).fields * valN (Bigint2048.ofNat 4).fields
      / valN (Bigint2048.ofNat 5).fields ≤ 2 ^ 2088 - 1 ∧
    ((∃ r, (Bigint2048.ofNat 5).modMul (Bigint2048.ofNat 7) (Bigint2048.ofNat 4)
        = some r ∧ Wf r ∧
      ∃ q : Nat, valN (Bigint2048.ofNat 7).fields * valN (Bigint2048.ofNat 4).fields
          = q * valN (Bigint2048.ofNat 5).fields + valN r.fields ∧
        valN r.fields < valN (Bigint2048.ofNat 5).fields) ∧
    gadgetCheck Bigint2048.ONE.fields Bigint2048.ONE.fields
      Bigint2048.ZERO.fields Bigint2048.ONE.fields Bigint2048.ONE.fields
      = true) :=
  ⟨by decide, by decide, by decide, by decide, by decide, by decide, by decide,
    by decide,
    C3_modMul (Bigint2048.ofNat 5) (Bigint2048.ofNat 7) (Bigint2048.ofNat 4)
      (by decide) (by decide) (by decide) (by decide) (by decide) (by decide)
      (by decide) (by decide)⟩

theorem C3_modMul_counterexample :
    Wf (Bigint2048.ofNat (2 ^ 2087)) ∧ Wf (Bigint2048.ofNat 2) ∧
    Wf Bigint2048.ONE ∧ 0 < valN Bigint2048.ONE.fields ∧
    Bigint2048.ONE.modMul (Bigint2048.ofNat (2 ^ 2087)) (Bigint2048.ofNat 2)
      = none := by
  exact ⟨by decide, by decide, by decide, by decide, by decide⟩

/-- C4: for well-formed `a` and nonzero `b` satisfying the amended bound
`|a| + 2*|b| ≤ 2^2088` (needed so the internal `mul` product and `add` sum
stay in range — without it `floorDiv` rejects: see the counterexample),
`a.floorDiv(b)` returns `(q, r)` equal to the native floor-division
reference `(fdiv, fmod)`, with `b*q + r = a`, `|r| < |b|`, and `r = 0` or
`sign(r) = sign(b)`. -/
theorem C4_floorDiv (a b : Bigint2048) (ha : Wf a) (hb : Wf b)
    (hbne : b.toBigInt ≠ 0)
    (hbound : a.toBigInt.natAbs + 2 * b.toBigInt.natAbs ≤ 2 ^ 2088) :
    ∃ qB rB, a.floorDiv b = some (qB, rB) ∧
      qB.toBigInt = a.toBigInt.fdiv b.toBigInt ∧
      rB.toBigInt = a.toBigInt.fmod b.toBigInt ∧
      b.toBigInt * qB.toBigInt + rB.toBigInt = a.toBigInt ∧
      rB.toBigInt.natAbs < b.toBigInt.natAbs ∧
      (rB.toBigInt = 0 ∨ (rB.toBigInt < 0 ↔ b.toBigInt < 0)) := by
  obtain ⟨qB, rB, h1, _, _, hqv, hrv⟩ :=
    Bigint2048.floorDiv_spec a b ha hb hbne hbound
  refine ⟨qB, rB, h1, hqv, hrv, ?_, ?_, ?_⟩
  · rw [hqv, hrv]
    exact Int.fdiv_add_fmod _ _
  · rw [hrv]
    rcases lt_trichotomy b.toBigInt 0 with hB | hB | hB
    · obtain ⟨hL, hR⟩ := fmod_neg_bounds a.toBigInt hB
      omega
    · exact absurd hB hbne
    · have hge : 0 ≤ a.toBigInt.fmod b.toBigInt := Int.fmod_nonneg' _ hB
      have hlt : a.toBigInt.fmod b.toBigInt < b.toBigInt := Int.fmod_lt_of_pos _ hB
      omega
  · rw [hrv]
    rcases lt_trichotomy b.toBigInt 0 with hB | hB | hB
    · obtain ⟨hL, hR⟩ := fmod_neg_bounds a.toBigInt hB
      rcases eq_or_lt_of_le hR with he | hlt
      · exact Or.inl he
      · exact Or.inr ⟨fun _ => hB, fun _ => hlt⟩
    · exact absurd hB hbne
    · have hge : 0 ≤ a.toBigInt.fmod b.toBigInt := Int.fmod_nonneg' _ hB
      exact Or.inr ⟨fun hlt => absurd hlt (by omega), fun hlt => absurd hlt (by omega)⟩

theorem C4_floorDiv_witness :
    Wf (Bigint2048.ofNat 23).neg ∧ Wf (Bigint2048.ofNat 5) ∧
    (Bigint2048.ofNat 5).toBigInt ≠ 0 ∧
    (Bigint2048.ofNat 23).neg.toBigInt.natAbs
      + 2 * (Bigint2048.ofNat 5).toBigInt.natAbs ≤ 2 ^ 2088 ∧
    (∃ qB rB, (Bigint2048.ofNat 23).neg.floorDiv (Bigint2048.ofNat 5)
        = some (qB, rB) ∧
      qB.toBigInt = (Bigint2048.ofNat 23).neg.toBigInt.fdiv
        (Bigint2048.ofNat 5).toBigInt ∧
      rB.toBigInt = (Bigint2048.ofNat 23).neg.toBigInt.fmod
        (Bigint2048.ofNat 5).toBigInt ∧
      (Bigint2048.ofNat 5).toBigInt * qB.toBigInt + rB.toBigInt
        = (Bigint2048.ofNat 23).neg.toBigInt ∧
      rB.toBigInt.natAbs < (Bigint2048.ofNat 5).toBigInt.natAbs ∧
      (rB.toBigInt = 0 ∨ (rB.toBigInt < 0 ↔ (Bigint2048.ofNat 5).toBigInt < 0))) :=
  ⟨by decide, by decide, by decide, by decide,
    C4_floorDiv (Bigint2048.ofNat 23).neg (Bigint2048.ofNat 5)
      (by decide) (by decide) (by decide) (by decide)⟩

theorem C4_floorDiv_counterexample :
    Wf Bigint2048.MAX ∧ Bigint2048.MAX.toBigInt ≠ 0 ∧
    Bigint2048.MAX.floorDiv Bigint2048.MAX = none := by
  exact ⟨by decide, by decide, by decide⟩

/-- C5: under the amended magnitude bounds `|a| + 2*|b| ≤ 2^2088 - 1` and
`2*|a| ≤ 2^2088 - 1` (without them the unconditional carry chain overflows
and `add` rejects: see the counterexample), `(a.add b).sub b` succeeds and
equals `a` (same integer value, and `equals` accepts), and `a.add (a.neg)`
succeeds with value zero. -/
theorem C5_add_sub (a b : Bigint2048) (ha : Wf a) (hb : Wf b)
    (hbound : valN a.fields + 2 * valN b.fields ≤ 2 ^ 2088 - 1)
    (hbound2 : 2 * valN a.fields ≤ 2 ^ 2088 - 1) :
    (∃ c d, a.add b = some c ∧ c.sub b = some d ∧
      d.toBigInt = a.toBigInt ∧ d.equals a = true) ∧
    (∃ z, a.add a.neg = some z ∧ z.toBigInt = 0) := by
  have hM : MAX_NAT = 2 ^ 2088 - 1 := rfl
  constructor
  · obtain ⟨c, hc, hwc, hcv, hcb⟩ := Bigint2048.add_spec a b ha hb (by omega)
    obtain ⟨d, hd, hwd, hdv, _⟩ :=
      Bigint2048.add_spec c b.neg hwc (Bigint2048.neg_wf b hb)
        (by rw [Bigint2048.neg_fields]; omega)
    have hdva : d.toBigInt = a.toBigInt := by
      rw [hdv, Bigint2048.toBigInt_neg, hcv]
      ring
    refine ⟨c, d, hc, hd, hdva, ?_⟩
    exact (Bigint2048.equals_iff d a hwd ha).mpr hdva
  · obtain ⟨z, hz, _, hzv, _⟩ :=
      Bigint2048.add_spec a a.neg ha (Bigint2048.neg_wf a ha)
        (by rw [Bigint2048.neg_fields]; omega)
    refine ⟨z, hz, ?_⟩
    rw [hzv, Bigint2048.toBigInt_neg]
    ring

theorem C5_add_sub_witness :
    Wf (Bigint2048.ofNat 100) ∧ Wf (Bigint2048.ofNat 30).neg ∧
    valN (Bigint2048.ofNat 100).fields
      + 2 * valN (Bigint2048.ofNat 30).neg.fields ≤ 2 ^ 2088 - 1 ∧
    2 * valN (Bigint2048.ofNat 100).fields ≤ 2 ^ 2088 - 1 ∧
    ((∃ c d, (Bigint2048.ofNat 100).add (Bigint2048.ofNat 30).neg = some c ∧
      c.sub (Bigint2048.ofNat 30).neg = some d ∧
      d.toBigInt = (Bigint2048.ofNat 100).toBigInt ∧
      d.equals (Bigint2048.ofNat 100) = true) ∧
    (∃ z, (Bigint2048.ofNat 100).add (Bigint2048.ofNat 100).neg = some z ∧
      z.toBigInt = 0)) :=
  ⟨by decide, by decide, by decide, by decide,
    C5_add_sub (Bigint2048.ofNat 100) (Bigint2048.ofNat 30).neg
      (by decide) (by decide) (by decide) (by decide)⟩

theorem C5_add_sub_counterexample :
    Wf Bigint2048.MAX ∧ Wf Bigint2048.MAX.neg ∧
    Bigint2048.MAX.neg.toBigInt = -Bigint2048.MAX.toBigInt ∧
    Bigint2048.MAX.add Bigint2048.MAX.neg = none := by
  exact ⟨by decide, by decide, by decide, by decide⟩

/-- C6: for well-formed `a` and `b`, the three-way comparison `cmp` agrees
with the comparison of the signed integer values (all-zero limbs count as
zero whatever the sign bit, since `toBigInt` maps both zero
representations to `0`), and `equals` accepts exactly when the integer
values are equal. -/
theorem C6_cmp_equals (a b : Bigint2048) (ha : Wf a) (hb : Wf b) :
    a.cmp b = compare a.toBigInt b.toBigInt ∧
    (a.equals b = true ↔ a.toBigInt = b.toBigInt) :=
  ⟨Bigint2048.cmp_spec a b ha hb, Bigint2048.equals_iff a b ha hb⟩

theorem C6_cmp_equals_witness :
    Wf (Bigint2048.ofNat 0).neg ∧ Wf (Bigint2048.ofNat 0) ∧
    ((Bigint2048.ofNat 0).neg.cmp (Bigint2048.ofNat 0)
        = compare (Bigint2048.ofNat 0).neg.toBigInt (Bigint2048.ofNat 0).toBigInt ∧
      ((Bigint2048.ofNat 0).neg.equals (Bigint2048.ofNat 0) = true ↔
        (Bigint2048.ofNat 0).neg.toBigInt = (Bigint2048.ofNat 0).toBigInt)) :=
  ⟨by decide, by decide,
    C6_cmp_equals (Bigint2048.ofNat 0).neg (Bigint2048.ofNat 0)
      (by decide) (by decide)⟩

/-- C7: under the amended bounds `a, b ≤ 2^2088 - 2` (for in-range values
up to `2^2088 - 1` the division inside `euclidGcd` can reject: see the
counterexample), `euclidGcd` on the canonical pair `(a, b)` succeeds and
returns a canonical pair with the same gcd. -/
theorem C7_gcd_invariant (a b : Nat)
    (ha : a ≤ 2 ^ 2088 - 2) (hb : b ≤ 2 ^ 2088 - 2) :
    ∃ x y, GcdPair.euclidGcd (GcdPair.mk (Bigint2048.ofNat a) (Bigint2048.ofNat b))
        = some (GcdPair.mk (Bigint2048.ofNat x) (Bigint2048.ofNat y)) ∧
      Nat.gcd x y = Nat.gcd a b := by
  have hM : MAX_NAT = 2 ^ 2088 - 1 := rfl
  have hMp := Bigint2048.MAX_NAT_pos
  exact ⟨(eIter 9 (a, b)).1, (eIter 9 (a, b)).2,
    euclidGcd_ofNat a b (by omega) (by omega), eIter_gcd 9 (a, b)⟩

theorem C7_gcd_invariant_witness :
    100 ≤ 2 ^ 2088 - 2 ∧ 35 ≤ 2 ^ 2088 - 2 ∧
    (∃ x y, GcdPair.euclidGcd
        (GcdPair.mk (Bigint2048.ofNat 100) (Bigint2048.ofNat 35))
        = some (GcdPair.mk (Bigint2048.ofNat x) (Bigint2048.ofNat y)) ∧
      Nat.gcd x y = Nat.gcd 100 35) :=
  ⟨by decide, by decide, C7_gcd_invariant 100 35 (by decide) (by decide)⟩

theorem C7_gcd_invariant_counterexample :
    Wf Bigint2048.MAX ∧ Bigint2048.MAX.negative = false ∧
    GcdPair.euclidGcd (GcdPair.mk Bigint2048.MAX Bigint2048.MAX) = none := by
  exact ⟨by decide, by decide, by decide⟩

/-- C8: `Bigint2048.from(x)` succeeds and round-trips through `toBigInt`
exactly for `|x| < 2^2088`, and throws (modelled as `none`) exactly for
`|x| ≥ 2^2088`. -/
theorem C8_fromInt_roundtrip (x : Int) :
    ((∃ v, Bigint2048.fromInt x = some v ∧ v.toBigInt = x)
      ↔ x.natAbs < 2 ^ 2088) ∧
    (Bigint2048.fromInt x = none ↔ 2 ^ 2088 ≤ x.natAbs) := by
  constructor
  · constructor
    · rintro ⟨v, hv, _⟩
      by_contra hge
      rw [(Bigint2048.fromInt_spec x).2 (by omega)] at hv
      exact Option.noConfusion hv
    · intro h
      obtain ⟨v, hv, hval, _⟩ := Bigint2048.fromInt_toBigInt x h
      exact ⟨v, hv, hval⟩
  · constructor
    · intro h
      by_contra hlt
      rw [(Bigint2048.fromInt_spec x).1 (by omega)] at h
      exact Option.noConfusion h
    · exact (Bigint2048.fromInt_spec x).2

/-- C9: for a native scalar `x`, the constraints of `rangeCheck116` are
satisfiable by some witness decomposition `(x0, x1)` exactly when
`x < 2^116`; in particular they are unsatisfiable at `x = 2^116` (see the
witness, which instantiates the theorem there). -/
theorem C9_rangeCheck116 (x : Nat) (hx : x < nativeP) :
    rc116Sat x ↔ x < 2 ^ 116 :=
  rc116Sat_iff x hx

theorem C9_rangeCheck116_witness :
    2 ^ 116 < nativeP ∧ (rc116Sat (2 ^ 116) ↔ 2 ^ 116 < 2 ^ 116) :=
  ⟨by decide, C9_rangeCheck116 (2 ^ 116) (by decide)⟩

/-- C10: for well-formed `a` and `b`, `a.mul b` succeeds, its sign bit is
the XOR of the operand sign bits, its magnitude is
`|a| * |b| mod (2^2088 - 1)`, and it equals the exact integer product
precisely when `|a| * |b| < 2^2088 - 1`. -/
theorem C10_mul (a b : Bigint2048) (ha : Wf a) (hb : Wf b) :
    ∃ m, a.mul b = some m ∧
      m.negative = !(a.negative == b.negative) ∧
      valN m.fields = valN a.fields * valN b.fields % (2 ^ 2088 - 1) ∧
      (m.toBigInt = a.toBigInt * b.toBigInt ↔
        valN a.fields * valN b.fields < 2 ^ 2088 - 1) := by
  have hM : MAX_NAT = 2 ^ 2088 - 1 := rfl
  obtain ⟨m, hm, hwm, hneg, hval, hexact⟩ := Bigint2048.mul_toBigInt a b ha hb
  refine ⟨m, hm, hneg, by rw [hval, hM], ?_⟩
  constructor
  · intro he
    rw [← hM]
    by_contra hge
    push_neg at hge
    have h1 : valN m.fields = valN a.fields * valN b.fields := by
      have h2 := congrArg Int.natAbs he
      rw [Bigint2048.natAbs_toBigInt, Int.natAbs_mul,
        Bigint2048.natAbs_toBigInt, Bigint2048.natAbs_toBigInt] at h2
      exact h2
    rw [hval] at h1
    have h3 : valN a.fields * valN b.fields % MAX_NAT < MAX_NAT :=
      Nat.mod_lt _ Bigint2048.MAX_NAT_pos
    omega
  · intro hlt
    exact hexact (by rw [hM]; omega)

theorem C10_mul_witness :
    Wf (Bigint2048.ofNat 9).neg ∧ Wf (Bigint2048.ofNat 8) ∧
    (∃ m, (Bigint2048.ofNat 9).neg.mul (Bigint2048.ofNat 8) = some m ∧
      m.negative = !((Bigint2048.ofNat 9).neg.negative
        == (Bigint2048.ofNat 8).negative) ∧
      valN m.fields = valN (Bigint2048.ofNat 9).neg.fields
        * valN (Bigint2048.ofNat 8).fields % (2 ^ 2088 - 1) ∧
      (m.toBigInt = (Bigint2048.ofNat 9).neg.toBigInt
          * (Bigint2048.ofNat 8).toBigInt ↔
        valN (Bigint2048.ofNat 9).neg.fields
          * valN (Bigint2048.ofNat 8).fields < 2 ^ 2088 - 1)) :=
  ⟨by decide, by decide,
    C10_mul (Bigint2048.ofNat 9).neg (Bigint2048.ofNat 8)
      (by decide) (by decide)⟩

